import Mathlib

/-!
# DIL core validator — shallow embedding

This file embeds the DIL reference validator (tolerant parser fragment for the
constraints section, the rule engine `validateCore` with rules V-M1..V-M5, and
the canonical report emitter `emitCanonicalReport` / `stableStringify`) in Lean
and proves the specification's claims about it.

Modelling conventions:
* TypeScript strings are Lean `String`s; line-level scanning works on `List Char`.
* JS `Map`/`Set` values are Lean lists in insertion order; a map never holds two
  entries with the same key, which is stated as a `Nodup` hypothesis where a
  claim needs it.
* JS regular expressions are embedded as explicit matchers over `List Char`
  (case-insensitive literals, `\s*`, `\s+`, `\d+`, `s?`, and the word-boundary
  assertion `\b`, with full backtracking, which for a boolean `test` is
  equivalent to the regex's search semantics).
* `localeCompare` and JS default string sorting are modelled by Lean's
  lexicographic order on `String`; JS `Array.prototype.sort` (stable) is
  modelled by `List.insertionSort`, which is stable.
* `unknown`-typed JSON data (error `refs` values) is modelled by the `JVal`
  JSON tree.
-/

namespace Dil

/-! ## Character classes (JS regex `\w`, `\d`, `\s` on the ASCII range) -/

def isWordChar (c : Char) : Bool :=
  c.isAlpha || c.isDigit || c = '_'

def isDigitChar (c : Char) : Bool :=
  c.isDigit

def isSpaceChar (c : Char) : Bool :=
  c = ' ' || c = '\t' || c = '\n' || c = '\r' || c = '\x0b' || c = '\x0c'

/-! ## Line utilities shared by the parser and the validator

`splitLines` is `raw.split(/\r?\n/)`: a line feed, optionally preceded by a
carriage return, separates lines; a lone carriage return does not. -/

def splitLines : List Char → List (List Char)
  | [] => [[]]
  | '\r' :: '\n' :: rest => [] :: splitLines rest
  | '\n' :: rest => [] :: splitLines rest
  | c :: rest =>
    match splitLines rest with
    | l :: ls => (c :: l) :: ls
    | [] => [[c]]

/-- `stripComments` / `line.replace(/#.*/, "")`: drop everything from the first
`#` to the end of the line. -/
def stripHash : List Char → List Char
  | [] => []
  | '#' :: _ => []
  | c :: rest => c :: stripHash rest

/-- JS `String.prototype.trim` on one line. -/
def trimChars (l : List Char) : List Char :=
  ((l.dropWhile isSpaceChar).reverse.dropWhile isSpaceChar).reverse

/-- Strip the literal prefix `pre` from `l`, returning the rest. -/
def dropLit : List Char → List Char → Option (List Char)
  | [], l => some l
  | _, [] => none
  | p :: ps, c :: cs => if c = p then dropLit ps cs else none

/-! ## Anchored matchers for the specific regexes of the parser/validator -/

/-- `^<kw>\s+([A-Za-z][A-Za-z0-9_]*)\b` — keyword, at least one whitespace,
then a capture of a letter followed by word characters (the trailing `\b` is
vacuous because the capture is maximal). Returns the capture. -/
def matchKwIdent (kw : List Char) (l : List Char) : Option String :=
  match dropLit kw l with
  | none => none
  | some rest =>
    match rest with
    | c :: _ =>
      if isSpaceChar c then
        match rest.dropWhile isSpaceChar with
        | d :: ds =>
          if d.isAlpha then some (String.mk (d :: ds.takeWhile isWordChar)) else none
        | [] => none
      else none
    | [] => none

/-- `^severity\s*:\s*([A-Za-z][A-Za-z0-9_]*)\s*$` — anchored at both ends. -/
def matchSeverity (l : List Char) : Option String :=
  match dropLit "severity".data l with
  | none => none
  | some rest =>
    match rest.dropWhile isSpaceChar with
    | ':' :: rest2 =>
      match rest2.dropWhile isSpaceChar with
      | d :: ds =>
        if d.isAlpha then
          let ident := d :: ds.takeWhile isWordChar
          if (ds.dropWhile isWordChar).dropWhile isSpaceChar = [] then
            some (String.mk ident)
          else none
        else none
      | [] => none
    | _ => none

/-- `^(validations?|validation)\s*:` — the keyword `validation`, an optional
`s`, optional whitespace, then a colon. -/
def isValidationsLine (l : List Char) : Bool :=
  match dropLit "validation".data l with
  | none => false
  | some rest =>
    (match rest with
     | 's' :: rest2 =>
       match rest2.dropWhile isSpaceChar with
       | ':' :: _ => true
       | _ => false
     | _ => false)
    ||
    (match rest.dropWhile isSpaceChar with
     | ':' :: _ => true
     | _ => false)

/-! ## A small backtracking matcher for the leak-detection regexes -/

/-- One item of a leak-signal pattern: case-insensitive literal, `\s*`, `\s+`,
`\d+`, an optional character (`s?`), or the word-boundary assertion `\b`. -/
inductive PatItem : Type
  | lit (c : Char)
  | wsStar
  | wsPlus
  | digPlus
  | opt (c : Char)
  | wb
deriving DecidableEq, Repr

/-- All ways of consuming a (possibly empty) run of whitespace: each element is
the character preceding the remaining input, paired with that remaining
input. -/
def wsTails (prev : Option Char) : List Char → List (Option Char × List Char)
  | [] => [(prev, [])]
  | d :: rest =>
    (prev, d :: rest) :: (if isSpaceChar d then wsTails (some d) rest else [])

/-- All ways of consuming a nonempty run of whitespace. -/
def ws1Tails (_prev : Option Char) : List Char → List (Option Char × List Char)
  | [] => []
  | d :: rest => if isSpaceChar d then wsTails (some d) rest else []

def dgTails (prev : Option Char) : List Char → List (Option Char × List Char)
  | [] => [(prev, [])]
  | d :: rest =>
    (prev, d :: rest) :: (if isDigitChar d then dgTails (some d) rest else [])

/-- All ways of consuming a nonempty run of digits. -/
def dg1Tails (_prev : Option Char) : List Char → List (Option Char × List Char)
  | [] => []
  | d :: rest => if isDigitChar d then dgTails (some d) rest else []

/-- Match a pattern at the current position. `prev` is the character just
before the position (`none` at the start of the input); it decides `\b`. -/
def matchItems : List PatItem → Option Char → List Char → Bool
  | [], _, _ => true
  | .lit _ :: _, _, [] => false
  | .lit c :: ps, _, d :: ds =>
    if d.toLower = c.toLower then matchItems ps (some d) ds else false
  | .wb :: ps, prev, ds =>
    let pw := match prev with | some c => isWordChar c | none => false
    let nw := match ds with | d :: _ => isWordChar d | [] => false
    if pw != nw then matchItems ps prev ds else false
  | .opt c :: ps, prev, ds =>
    (match ds with
     | d :: rest => if d.toLower = c.toLower then matchItems ps (some d) rest else false
     | [] => false)
    || matchItems ps prev ds
  | .wsStar :: ps, prev, ds => (wsTails prev ds).any fun pr => matchItems ps pr.1 pr.2
  | .wsPlus :: ps, prev, ds => (ws1Tails prev ds).any fun pr => matchItems ps pr.1 pr.2
  | .digPlus :: ps, prev, ds => (dg1Tails prev ds).any fun pr => matchItems ps pr.1 pr.2

/-- `re.test`: try the pattern at every position of the input. -/
def testFrom (ps : List PatItem) : Option Char → List Char → Bool
  | prev, [] => matchItems ps prev []
  | prev, d :: rest => matchItems ps prev (d :: rest) || testFrom ps (some d) rest

/-- The character immediately preceding the end of `pre` (its last character),
or `prev` when `pre` is empty: the `\b` context after scanning `pre`. -/
def lastCharOf (prev : Option Char) : List Char → Option Char
  | [] => prev
  | c :: cs => lastCharOf (some c) cs

/-- Build the pattern items for a literal word surrounded by `\b`. -/
def litSeq (s : List Char) : List PatItem :=
  s.map .lit

/-! The eight leak signals of `hasImplementationLeak`, in source order. -/

def patBTree : List PatItem := [.wb] ++ litSeq "B-Tree".data ++ [.wb]

def patLRU : List PatItem := [.wb] ++ litSeq "LRU".data ++ [.wb]

def patOLogN : List PatItem :=
  [.wb, .lit 'O', .lit '('] ++ [.wsStar] ++ litSeq "log".data ++
    [.wsStar, .lit 'n', .wsStar, .lit ')', .wb]

def patON : List PatItem :=
  [.wb, .lit 'O', .lit '(', .wsStar, .lit 'n', .wsStar, .lit ')', .wb]

def patRebalance : List PatItem := [.wb] ++ litSeq "rebalance".data ++ [.wb]

def patBackground : List PatItem := [.wb] ++ litSeq "background".data ++ [.wb]

def patCompaction : List PatItem := [.wb] ++ litSeq "compaction".data ++ [.wb]

def patEveryNMinutes : List PatItem :=
  [.wb] ++ litSeq "every".data ++ [.wsPlus, .digPlus, .wsPlus] ++
    litSeq "minute".data ++ [.opt 's', .wb]

def leakSignals : List (List PatItem) :=
  [patBTree, patLRU, patOLogN, patON, patRebalance, patBackground,
   patCompaction, patEveryNMinutes]

/-- `hasImplementationLeak`: does any of the eight case-insensitive signal
regexes match anywhere in the raw input? -/
def hasImplementationLeak (raw : String) : Bool :=
  leakSignals.any fun ps => testFrom ps none raw.data

/-! ## Data model (`parse.ts` and `report.ts` types)

`issues` is not read by the rule engine or the emitter and is omitted. -/

structure ParsedIntent where
  id : String
deriving DecidableEq, Repr

structure ParsedConstraint where
  id : String
  severity : Option String := none
deriving DecidableEq, Repr

structure ParsedDecision where
  id : String
  supports : List String
  respects : List String
deriving DecidableEq, Repr

structure ParsedValidation where
  id : String
  requires_capability : Option String := none
deriving DecidableEq, Repr

structure ParsedSpec where
  spec_version : String
  system_id : String
  raw_text : String
  sections_raw : List (String × String)
  capabilities : List String
  intents : List ParsedIntent
  constraints : List ParsedConstraint
  decisions : List ParsedDecision
  validations : List ParsedValidation
deriving DecidableEq, Repr

/-! A JSON-like value tree modelling the `unknown`-typed data that can appear
in `refs` and `extensions`, and the normalized report before serialization.
Arrays and objects carry their own spine types (`JArr`, `JObj`) so that every
recursion over the tree is structural (and so computes inside the kernel);
`jarr`/`jobj` and `JArr.toList`/`JObj.toList` convert to and from ordinary
lists. -/

mutual

inductive JVal : Type
  | null
  | bool (b : Bool)
  | num (n : Int)
  | str (s : String)
  | arr (xs : JArr)
  | obj (kvs : JObj)

inductive JArr : Type
  | nil
  | cons (hd : JVal) (tl : JArr)

inductive JObj : Type
  | nil
  | cons (k : String) (v : JVal) (tl : JObj)

end

def jarr : List JVal → JArr
  | [] => .nil
  | x :: xs => .cons x (jarr xs)

def jobj : List (String × JVal) → JObj
  | [] => .nil
  | (k, v) :: ps => .cons k v (jobj ps)

def JArr.toList : JArr → List JVal
  | .nil => []
  | .cons x xs => x :: xs.toList

def JObj.toList : JObj → List (String × JVal)
  | .nil => []
  | .cons k v ps => (k, v) :: ps.toList

/-! ## String comparison (`localeCompare` and the default `sort()` order)

JavaScript compares strings by code unit; for the ASCII strings of this
domain that coincides with code-point order. The comparison is spelled out on
the character lists. -/

def strCmp : List Char → List Char → Ordering
  | [], [] => .eq
  | [], _ :: _ => .lt
  | _ :: _, [] => .gt
  | c :: cs, d :: ds =>
    if c.toNat < d.toNat then .lt
    else if d.toNat < c.toNat then .gt
    else strCmp cs ds

/-- `a.localeCompare(b)` as an `Ordering`. -/
def strCmpS (a b : String) : Ordering :=
  strCmp a.data b.data

/-- "`a` sorts no later than `b`": the comparator is not positive. -/
def strLE (a b : String) : Prop :=
  strCmpS a b ≠ .gt

instance : DecidableRel strLE := fun a b =>
  inferInstanceAs (Decidable (strCmpS a b ≠ .gt))

inductive OutcomeStatus : Type
  | satisfied
  | unsatisfied
  | unknown
  | inapplicable
deriving DecidableEq, Repr

inductive ReportState : Type
  | valid
  | invalid
  | undecidable
deriving DecidableEq, Repr

structure EvidenceItem where
  kind : String
  value : String
deriving DecidableEq, Repr

structure ValidationOutcome where
  validation_id : String
  status : OutcomeStatus
  targets : List String
  reason : Option String := none
  evidence : Option (List EvidenceItem) := none
  notes : Option (List String) := none
deriving DecidableEq, Repr

structure StructuredError where
  code : String
  message : String
  refs : List (String × JVal)
  evidence : Option (List EvidenceItem) := none
  notes : Option (List String) := none

structure CanonicalReport where
  spec_version : String
  system_id : String
  state : ReportState
  outcomes : List ValidationOutcome
  errors : List StructuredError
  notes : Option (List String) := none
  extensions : Option (List (String × JVal)) := none

/-! ## The constraints-section parsing step (`parseDil`, constraints case)

`parseDil` processes the comment-stripped, trimmed text of each line while the
current section is `constraints`: a `constraint <ID>` match registers the id
if it is not present yet, and a `severity: <VALUE>` match sets the severity of
the most recently registered constraint (`Array.from(map.values()).at(-1)`),
if any. `parseConstraintsSection` folds this step over the section's lines. -/

def setLastSeverity (sev : String) : List ParsedConstraint → List ParsedConstraint
  | [] => []
  | [c] => [{ c with severity := some sev }]
  | c :: rest => c :: setLastSeverity sev rest

def constraintsLineStep (cs : List ParsedConstraint) (rawLine : String) :
    List ParsedConstraint :=
  let trimmed := trimChars (stripHash rawLine.data)
  let cs1 :=
    match matchKwIdent "constraint".data trimmed with
    | some cid =>
      if cs.any (fun c => c.id == cid) then cs
      else cs ++ [{ id := cid, severity := none }]
    | none => cs
  match matchSeverity trimmed with
  | some sev => setLastSeverity sev cs1
  | none => cs1

def parseConstraintsSection (lines : List String) : List ParsedConstraint :=
  lines.foldl constraintsLineStep []

/-! ## Rule engine (`validate.ts`) -/

def fq (kind : String) (id : String) : String :=
  kind ++ "." ++ id

/-- `parsed.sections_raw[name] ?? ""`. -/
def sectionRaw (p : ParsedSpec) (name : String) : String :=
  match p.sections_raw.find? (fun kv => kv.1 == name) with
  | some kv => kv.2
  | none => ""

/-- JS truthiness of a `string | undefined` value (`!!v`). -/
def optTruthy : Option String → Bool
  | some s => s != ""
  | none => false

/-- `intentHasExplicitAssociation`'s line scan: track whether the last `intent
<ID>` line seen declares the intent under scrutiny, and report success on a
`validations:`/`validation:` line inside that intent's block. -/
def explicitAssocScan (intentId : String) : List (List Char) → Bool → Bool
  | [], _ => false
  | l0 :: rest, inBlock =>
    let line := trimChars (stripHash l0)
    if line.isEmpty then explicitAssocScan intentId rest inBlock
    else
      match matchKwIdent "intent".data line with
      | some mid => explicitAssocScan intentId rest (mid == intentId)
      | none =>
        if inBlock && isValidationsLine line then true
        else explicitAssocScan intentId rest inBlock

def intentHasExplicitAssociation (intentsRaw : String) (intentId : String) : Bool :=
  explicitAssocScan intentId (splitLines intentsRaw.data) false

/-! ### V-M1 — Intent Verifiability -/

def hasReqCapValidation (p : ParsedSpec) : Bool :=
  p.validations.any fun v => optTruthy v.requires_capability

def reqCapValidation (p : ParsedSpec) : Option ParsedValidation :=
  p.validations.find? fun v => optTruthy v.requires_capability

def supportedBySomeDecision (p : ParsedSpec) (intentId : String) : Bool :=
  p.decisions.any fun d => d.supports.contains intentId

/-- `explicit || implied` for one intent. -/
def intentAssociated (p : ParsedSpec) (i : ParsedIntent) : Bool :=
  intentHasExplicitAssociation (sectionRaw p "intents") i.id
    || (hasReqCapValidation p && supportedBySomeDecision p i.id)

def vm1Unassoc (p : ParsedSpec) : List ParsedIntent :=
  p.intents.filter fun i => !intentAssociated p i

def vm1UnsatTargets (p : ParsedSpec) : List String :=
  (vm1Unassoc p).map fun i => fq "intents" i.id

def vm1Errors (p : ParsedSpec) : List StructuredError :=
  (vm1Unassoc p).map fun i =>
    { code := "INTENT_NOT_VERIFIABLE"
      message := "Intent lacks explicit validation; verifiability is required."
      refs := [("intent", .str (fq "intents" i.id)), ("validation", .str "V-M1")] }

/-- `Map.set` on an insertion-ordered association list. -/
def upsert : List (String × String) → String → String → List (String × String)
  | [], k, v => [(k, v)]
  | (k', v') :: rest, k, v =>
    if k' == k then (k, v) :: rest else (k', v') :: upsert rest k v

/-- The `intentValidationAssoc` map: intents whose association is implied are
mapped to the first `requires_capability` validation's id. -/
def vm1AssocList (p : ParsedSpec) : List (String × String) :=
  List.foldl
    (fun acc i =>
      if intentAssociated p i then
        if hasReqCapValidation p && supportedBySomeDecision p i.id then
          match reqCapValidation p with
          | some v => upsert acc i.id v.id
          | none => acc
        else acc
      else acc)
    [] p.intents

def vm1Notes (p : ParsedSpec) : Option (List String) :=
  if vm1UnsatTargets p = [] ∧ 0 < p.intents.length then
    if p.intents.length = 1 ∧ (vm1AssocList p).length = 1 then
      match vm1AssocList p with
      | (iid, vid) :: _ =>
        some ["Intent " ++ fq "intents" iid ++ " is associated with validation "
            ++ fq "validations" vid ++ "."]
      | [] => some ["All intents are considered verifiable under core association rules."]
    else some ["All intents are considered verifiable under core association rules."]
  else if vm1UnsatTargets p = [] ∧ p.intents.length = 0 then
    some ["No intents declared."]
  else none

def vm1Outcome (p : ParsedSpec) : ValidationOutcome :=
  { validation_id := "V-M1"
    status := if vm1UnsatTargets p ≠ [] then .unsatisfied else .satisfied
    targets :=
      if vm1UnsatTargets p ≠ [] then vm1UnsatTargets p
      else p.intents.map fun i => fq "intents" i.id
    notes := vm1Notes p }

/-! ### V-M2 — Constraint Integrity -/

def sortStrings (l : List String) : List String :=
  l.insertionSort strLE

def constraintNames (p : ParsedSpec) : List String :=
  sortStrings (p.constraints.map fun c => fq "constraints" c.id)

def vm2Outcome (p : ParsedSpec) : ValidationOutcome :=
  if p.constraints.length = 0 then
    { validation_id := "V-M2", status := .satisfied, targets := []
      notes := some ["No constraints declared."] }
  else if p.constraints.length = 1 then
    { validation_id := "V-M2", status := .satisfied, targets := constraintNames p
      notes := some ["Constraint " ++ (constraintNames p).headD ""
          ++ " exists and is evaluable."] }
  else
    { validation_id := "V-M2", status := .satisfied, targets := []
      notes := some ["All declared constraints ("
          ++ String.intercalate ", " (constraintNames p)
          ++ ") exist and are syntactically evaluable."] }

/-! ### V-M3 — Decision Traceability -/

def hasIntentId (p : ParsedSpec) (id : String) : Bool :=
  p.intents.any fun i => i.id == id

def hasConstraintId (p : ParsedSpec) (id : String) : Bool :=
  p.constraints.any fun c => c.id == id

def brokenIntents (p : ParsedSpec) (d : ParsedDecision) : List String :=
  d.supports.filter fun iid => !hasIntentId p iid

def brokenConstraints (p : ParsedSpec) (d : ParsedDecision) : List String :=
  d.respects.filter fun cid => !hasConstraintId p cid

def untracedError (d : ParsedDecision) : StructuredError :=
  { code := "UNTRACED_DECISION"
    message := "Decision missing traceability links to intents/constraints."
    refs := [("constraint", .str "constraints.C2"),
             ("decision", .str (fq "decisions" d.id))] }

def brokenRefError (p : ParsedSpec) (d : ParsedDecision) : StructuredError :=
  { code := "BROKEN_REFERENCE"
    message := "Decision references non-existent intent or constraint."
    refs := [("decision", .str (fq "decisions" d.id)),
             ("intent", .str ((brokenIntents p d).headD "I_DO_NOT_EXIST")),
             ("constraint", .str ((brokenConstraints p d).headD "C_DO_NOT_EXIST"))] }

def vm3DecisionFails (p : ParsedSpec) (d : ParsedDecision) : Bool :=
  d.supports.isEmpty || !(brokenIntents p d).isEmpty || !(brokenConstraints p d).isEmpty

def vm3BadTargets (p : ParsedSpec) : List String :=
  (p.decisions.filter fun d => vm3DecisionFails p d).map fun d => fq "decisions" d.id

/-- The errors the V-M3 loop body pushes for one decision. -/
def vm3DecisionErrors (p : ParsedSpec) (d : ParsedDecision) : List StructuredError :=
  if d.supports.isEmpty then [untracedError d]
  else if !(brokenIntents p d).isEmpty || !(brokenConstraints p d).isEmpty then
    [brokenRefError p d]
  else []

def vm3Errors (p : ParsedSpec) : List StructuredError :=
  p.decisions.flatMap fun d => vm3DecisionErrors p d

/-- `Array.from(new Set(xs))`: deduplicate keeping first occurrences. -/
def dedupFirstAux (seen : List String) : List String → List String
  | [] => []
  | x :: xs =>
    if seen.contains x then dedupFirstAux seen xs
    else x :: dedupFirstAux (x :: seen) xs

def dedupFirst (l : List String) : List String :=
  dedupFirstAux [] l

def vm3Outcome (p : ParsedSpec) : ValidationOutcome :=
  if vm3BadTargets p ≠ [] then
    { validation_id := "V-M3", status := .unsatisfied
      targets := sortStrings (dedupFirst (vm3BadTargets p)) }
  else
    match p.decisions with
    | [] =>
      { validation_id := "V-M3", status := .satisfied, targets := []
        notes := some ["No decisions declared."] }
    | [d] =>
      { validation_id := "V-M3", status := .satisfied
        targets := [fq "decisions" d.id]
        notes := some ["Decision " ++ fq "decisions" d.id ++ " supports "
            ++ String.intercalate ", " (d.supports.map fun i => fq "intents" i)
            ++ " and respects "
            ++ String.intercalate ", " (d.respects.map fun c => fq "constraints" c)
            ++ "."] }
    | _ =>
      { validation_id := "V-M3", status := .satisfied
        targets := p.decisions.map fun d => fq "decisions" d.id
        notes := some ["All decisions meet core traceability requirements."] }

/-! ### V-M4 — Capability Coverage -/

/-- `v.requires_capability && !parsed.capabilities.has(v.requires_capability)`. -/
def capMissing (p : ParsedSpec) (v : ParsedValidation) : Bool :=
  match v.requires_capability with
  | some c => c != "" && !p.capabilities.contains c
  | none => false

def vm4Missing (p : ParsedSpec) : List ParsedValidation :=
  p.validations.filter fun v => capMissing p v

def vm4MissingCap (v : ParsedValidation) : String :=
  v.requires_capability.getD ""

def vm4Outcome (p : ParsedSpec) : ValidationOutcome :=
  match vm4Missing p with
  | [] =>
    { validation_id := "V-M4", status := .satisfied, targets := []
      notes := some ["Validations are executable using declared capabilities ("
          ++ String.intercalate ", "
              (p.capabilities.filter fun c => c.startsWith "emit_structured_")
          ++ ")."] }
  | v :: vs =>
    { validation_id := "V-M4", status := .unknown
      targets := (v :: vs).map fun x => fq "validations" x.id
      reason := some ("Validation validations." ++ v.id
          ++ " requires undeclared capability '" ++ vm4MissingCap v ++ "'.") }

/-! ### V-M5 — No Implementation Leakage -/

def vm5Leak (p : ParsedSpec) : Bool :=
  hasImplementationLeak p.raw_text

def implLeakError : StructuredError :=
  { code := "IMPLEMENTATION_LEAK"
    message := "Specification prescribes implementation; violates No Implementation."
    refs := [("constraint", .str "constraints.C1"), ("validation", .str "V-M5")] }

def vm5Errors (p : ParsedSpec) : List StructuredError :=
  if vm5Leak p then [implLeakError] else []

def leakExcerpt : EvidenceItem :=
  { kind := "excerpt"
    value := "implementation_notes contains algorithmic and procedural directives (B-Tree, LRU, Big-O, scheduled job)." }

def vm5Outcome (p : ParsedSpec) : ValidationOutcome :=
  { validation_id := "V-M5"
    status := if vm5Leak p then .unsatisfied else .satisfied
    targets := ["system"]
    evidence := if vm5Leak p then some [leakExcerpt] else none }

/-! ### Aggregation and `validateCore` -/

def coreOutcomes (p : ParsedSpec) : List ValidationOutcome :=
  [vm1Outcome p, vm2Outcome p, vm3Outcome p, vm4Outcome p, vm5Outcome p]

/-- Errors accumulate in rule order: V-M1, then V-M3, then V-M5 (V-M2 and V-M4
never push errors). -/
def coreErrors (p : ParsedSpec) : List StructuredError :=
  vm1Errors p ++ vm3Errors p ++ vm5Errors p

def supportedVersions : List String :=
  ["DIL:spec v0"]

def unsupportedError (p : ParsedSpec) : StructuredError :=
  { code := "UNSUPPORTED_SPEC_VERSION"
    message := "Validator does not support the declared spec version."
    refs := [("spec", .str p.spec_version),
             ("supported", .arr (jarr (supportedVersions.map .str)))] }

def aggState (p : ParsedSpec) : ReportState :=
  if vm5Leak p || (coreOutcomes p).any (fun o => o.status == .unsatisfied) then .invalid
  else if (coreOutcomes p).any (fun o => o.status == .unknown) then .undecidable
  else .valid

def stateExit : ReportState → Nat
  | .valid => 0
  | .invalid => 1
  | .undecidable => 2

def validateCore (p : ParsedSpec) : CanonicalReport × Nat :=
  if supportedVersions.contains p.spec_version then
    let st := aggState p
    ({ spec_version := p.spec_version
       system_id := p.system_id
       state := st
       outcomes := coreOutcomes p
       errors := if st == .valid then [] else coreErrors p }, stateExit st)
  else
    ({ spec_version := p.spec_version
       system_id := p.system_id
       state := .invalid
       outcomes := []
       errors := [unsupportedError p] }, 1)

/-! ## Canonical report emitter (`report.ts`)

`localeCompare`-based comparators are modelled by `strCmpS`; JS
`Array.prototype.sort` (stable since ES2019) by `List.insertionSort`, which
is stable. -/

/-- Entry order for `deepSortKeys`' key sort: by key string only. -/
def kvLE (a b : String × JVal) : Prop :=
  strLE a.1 b.1

instance : DecidableRel kvLE := fun a b =>
  inferInstanceAs (Decidable (strLE a.1 b.1))

def sortKVs (kvs : List (String × JVal)) : List (String × JVal) :=
  kvs.insertionSort kvLE

/-! `deepSortKeys`: sort object keys lexicographically at every depth; arrays
keep their element order. The source sorts an object's keys and then recurses
into the values; here the values are normalized first (`deepSortEntries`) and
the entries sorted afterwards, which produces the same object because the
comparator reads only the keys, which the recursion preserves (the swap keeps
the recursion structural). -/

mutual

def deepSortKeys : JVal → JVal
  | .null => .null
  | .bool b => .bool b
  | .num n => .num n
  | .str s => .str s
  | .arr xs => .arr (deepSortArr xs)
  | .obj kvs => .obj (jobj (sortKVs (deepSortEntries kvs)))

def deepSortArr : JArr → JArr
  | .nil => .nil
  | .cons x xs => .cons (deepSortKeys x) (deepSortArr xs)

def deepSortEntries : JObj → List (String × JVal)
  | .nil => []
  | .cons k v ps => (k, deepSortKeys v) :: deepSortEntries ps

end

/-! JSON serialization (`JSON.stringify`, compact and 2-space-indented). -/

def hexDigit (n : Nat) : Char :=
  if n < 10 then Char.ofNat ('0'.toNat + n) else Char.ofNat ('a'.toNat + (n - 10))

def escapeChar (c : Char) : List Char :=
  if c = '"' then ['\\', '"']
  else if c = '\\' then ['\\', '\\']
  else if c = '\n' then ['\\', 'n']
  else if c = '\r' then ['\\', 'r']
  else if c = '\t' then ['\\', 't']
  else if c = '\x08' then ['\\', 'b']
  else if c = '\x0c' then ['\\', 'f']
  else if c.toNat < 32 then
    ['\\', 'u', '0', '0', hexDigit (c.toNat / 16), hexDigit (c.toNat % 16)]
  else [c]

def quoteJson (s : String) : String :=
  "\"" ++ String.mk (s.data.flatMap escapeChar) ++ "\""

mutual

def jStrCompact : JVal → String
  | .null => "null"
  | .bool b => if b then "true" else "false"
  | .num n => toString n
  | .str s => quoteJson s
  | .arr xs => "[" ++ jStrCompactArr xs ++ "]"
  | .obj kvs => "\x7b" ++ jStrCompactObj kvs ++ "\x7d"

def jStrCompactArr : JArr → String
  | .nil => ""
  | .cons x .nil => jStrCompact x
  | .cons x (.cons y ys) => jStrCompact x ++ "," ++ jStrCompactArr (.cons y ys)

def jStrCompactObj : JObj → String
  | .nil => ""
  | .cons k v .nil => quoteJson k ++ ":" ++ jStrCompact v
  | .cons k v (.cons k2 v2 ps) =>
    quoteJson k ++ ":" ++ jStrCompact v ++ "," ++ jStrCompactObj (.cons k2 v2 ps)

end

/-- `stableStringify`: deep-sort keys, then compact `JSON.stringify`. -/
def stableStringify (v : JVal) : String :=
  jStrCompact (deepSortKeys v)

/-! `jStrInd` is `JSON.stringify(v, null, 2)`: 2-space indentation; `ind` is
the indentation prefix of the line on which the value's closing bracket
sits. -/

mutual

def jStrInd (ind : String) : JVal → String
  | .null => "null"
  | .bool b => if b then "true" else "false"
  | .num n => toString n
  | .str s => quoteJson s
  | .arr .nil => "[]"
  | .arr (.cons x xs) =>
    "[\n" ++ jStrIndArr (ind ++ "  ") (.cons x xs) ++ "\n" ++ ind ++ "]"
  | .obj .nil => "\x7b\x7d"
  | .obj (.cons k v kvs) =>
    "\x7b\n" ++ jStrIndObj (ind ++ "  ") (.cons k v kvs) ++ "\n" ++ ind ++ "\x7d"

def jStrIndArr (ind : String) : JArr → String
  | .nil => ""
  | .cons x .nil => ind ++ jStrInd ind x
  | .cons x (.cons y ys) =>
    ind ++ jStrInd ind x ++ ",\n" ++ jStrIndArr ind (.cons y ys)

def jStrIndObj (ind : String) : JObj → String
  | .nil => ""
  | .cons k v .nil => ind ++ quoteJson k ++ ": " ++ jStrInd ind v
  | .cons k v (.cons k2 v2 ps) =>
    ind ++ quoteJson k ++ ": " ++ jStrInd ind v ++ ",\n"
      ++ jStrIndObj ind (.cons k2 v2 ps)

end

/-- `normalizeOutcome`: sort `targets`; drop a falsy (empty) `reason`; copy the
optional lists. -/
def normalizeOutcome (o : ValidationOutcome) : ValidationOutcome :=
  { validation_id := o.validation_id
    status := o.status
    targets := sortStrings o.targets
    reason := match o.reason with
      | some s => if s = "" then none else some s
      | none => none
    evidence := o.evidence
    notes := o.notes }

/-- `normalizeError`: rebuild the record (`refs` is total in this model, so
`refs ?? {}` is the identity). -/
def normalizeError (e : StructuredError) : StructuredError :=
  { code := e.code
    message := e.message
    refs := e.refs
    evidence := e.evidence
    notes := e.notes }

def joinNull (l : List String) : String :=
  String.intercalate "\x00" l

/-- `c1 !== 0 ? c1 : c2`: compare by the first component's `localeCompare`,
break ties with the second's. -/
def cmpPair (a b : String × String) : Ordering :=
  match strCmpS a.1 b.1 with
  | .eq => strCmpS a.2 b.2
  | o => o

def pairLE (a b : String × String) : Prop :=
  cmpPair a b ≠ .gt

instance : DecidableRel pairLE := fun a b =>
  inferInstanceAs (Decidable (cmpPair a b ≠ .gt))

/-- Outcome sort key: `validation_id`, then the `"\u0000"`-joined targets. -/
def outKey (o : ValidationOutcome) : String × String :=
  (o.validation_id, joinNull o.targets)

def outLE (a b : ValidationOutcome) : Prop :=
  pairLE (outKey a) (outKey b)

instance : DecidableRel outLE := fun a b =>
  inferInstanceAs (Decidable (pairLE (outKey a) (outKey b)))

/-- Error sort key: `code`, then the stable (key-sorted) stringification of
`refs`. -/
def errKey (e : StructuredError) : String × String :=
  (e.code, stableStringify (.obj (jobj e.refs)))

def errLE (a b : StructuredError) : Prop :=
  pairLE (errKey a) (errKey b)

instance : DecidableRel errLE := fun a b =>
  inferInstanceAs (Decidable (pairLE (errKey a) (errKey b)))

def statusStr : OutcomeStatus → String
  | .satisfied => "satisfied"
  | .unsatisfied => "unsatisfied"
  | .unknown => "unknown"
  | .inapplicable => "inapplicable"

def stateStr : ReportState → String
  | .valid => "valid"
  | .invalid => "invalid"
  | .undecidable => "undecidable"

def evidenceToJVal (e : EvidenceItem) : JVal :=
  .obj (jobj [("kind", .str e.kind), ("value", .str e.value)])

/-- The JSON object a (normalized) outcome serializes as; optional fields are
omitted when absent. -/
def outcomeToJVal (o : ValidationOutcome) : JVal :=
  .obj (jobj ([("validation_id", .str o.validation_id),
         ("status", .str (statusStr o.status)),
         ("targets", .arr (jarr (o.targets.map .str)))]
    ++ (match o.reason with | some s => [("reason", .str s)] | none => [])
    ++ (match o.evidence with
        | some ev => [("evidence", .arr (jarr (ev.map evidenceToJVal)))]
        | none => [])
    ++ (match o.notes with
        | some ns => [("notes", .arr (jarr (ns.map .str)))]
        | none => [])))

def errorToJVal (e : StructuredError) : JVal :=
  .obj (jobj ([("code", .str e.code),
         ("message", .str e.message),
         ("refs", .obj (jobj e.refs))]
    ++ (match e.evidence with
        | some ev => [("evidence", .arr (jarr (ev.map evidenceToJVal)))]
        | none => [])
    ++ (match e.notes with
        | some ns => [("notes", .arr (jarr (ns.map .str)))]
        | none => [])))

def reportToJVal (r : CanonicalReport) : JVal :=
  .obj (jobj ([("spec_version", .str r.spec_version),
         ("system_id", .str r.system_id),
         ("state", .str (stateStr r.state)),
         ("outcomes", .arr (jarr (r.outcomes.map outcomeToJVal))),
         ("errors", .arr (jarr (r.errors.map errorToJVal)))]
    ++ (match r.notes with
        | some ns => [("notes", .arr (jarr (ns.map .str)))]
        | none => [])
    ++ (match r.extensions with
        | some kvs => [("extensions", .obj (jobj kvs))]
        | none => [])))

/-- `emitCanonicalReport`: normalize and sort outcomes and errors, deep-sort
all object keys, and serialize with 2-space indentation. -/
def emitCanonicalReport (r : CanonicalReport) : String :=
  let outcomes := (r.outcomes.map normalizeOutcome).insertionSort outLE
  let errors := (r.errors.map normalizeError).insertionSort errLE
  jStrInd ""
    (deepSortKeys (reportToJVal
      { spec_version := r.spec_version
        system_id := r.system_id
        state := r.state
        outcomes := outcomes
        errors := errors
        notes := r.notes
        extensions := r.extensions }))

/-! ## Equality up to object-key order

`JEquiv v w` says `w` differs from `v` only in the order of keys inside
objects, at any depth: an object's entry list may be permuted and its values
related recursively; arrays keep their length and order. `WFKeys v` says no
object anywhere in `v` repeats a key (always true of values that come from JS
objects). -/

mutual

inductive JEquiv : JVal → JVal → Prop
  | null : JEquiv .null .null
  | bool (b : Bool) : JEquiv (.bool b) (.bool b)
  | num (n : Int) : JEquiv (.num n) (.num n)
  | str (s : String) : JEquiv (.str s) (.str s)
  | arr {xs ys : JArr} : JEquivArr xs ys → JEquiv (.arr xs) (.arr ys)
  | obj {l₁ l₂ : JObj} {mid : List (String × JVal)} :
      l₁.toList.Perm mid → JEquivKVs mid l₂.toList → JEquiv (.obj l₁) (.obj l₂)

inductive JEquivArr : JArr → JArr → Prop
  | nil : JEquivArr .nil .nil
  | cons {x y : JVal} {xs ys : JArr} :
      JEquiv x y → JEquivArr xs ys → JEquivArr (.cons x xs) (.cons y ys)

inductive JEquivKVs : List (String × JVal) → List (String × JVal) → Prop
  | nil : JEquivKVs [] []
  | cons (k : String) {v w : JVal} {ps qs : List (String × JVal)} :
      JEquiv v w → JEquivKVs ps qs → JEquivKVs ((k, v) :: ps) ((k, w) :: qs)

end

mutual

inductive WFKeys : JVal → Prop
  | null : WFKeys .null
  | bool (b : Bool) : WFKeys (.bool b)
  | num (n : Int) : WFKeys (.num n)
  | str (s : String) : WFKeys (.str s)
  | arr {xs : JArr} : WFArr xs → WFKeys (.arr xs)
  | obj {kvs : JObj} :
      (kvs.toList.map Prod.fst).Nodup → WFObj kvs → WFKeys (.obj kvs)

inductive WFArr : JArr → Prop
  | nil : WFArr .nil
  | cons {x : JVal} {xs : JArr} : WFKeys x → WFArr xs → WFArr (.cons x xs)

inductive WFObj : JObj → Prop
  | nil : WFObj .nil
  | cons {k : String} {v : JVal} {ps : JObj} :
      WFKeys v → WFObj ps → WFObj (.cons k v ps)

end

/-- Two optional extensions objects that are equal up to the order of keys
inside objects, at any depth (both absent, or both present and `JEquiv`). -/
inductive ExtEquiv :
    Option (List (String × JVal)) → Option (List (String × JVal)) → Prop
  | none : ExtEquiv none none
  | some {kvs₁ kvs₂ : List (String × JVal)} :
      JEquiv (.obj (jobj kvs₁)) (.obj (jobj kvs₂)) →
      ExtEquiv (some kvs₁) (some kvs₂)

/-- Two errors that differ only in the key order inside their refs object (at
any depth), with all other fields equal. -/
def ErrEquiv (e₁ e₂ : StructuredError) : Prop :=
  e₁.code = e₂.code ∧ e₁.message = e₂.message ∧ e₁.evidence = e₂.evidence ∧
    e₁.notes = e₂.notes ∧ JEquiv (.obj (jobj e₁.refs)) (.obj (jobj e₂.refs))

/-! Two reports whose outcomes lists tie on the emitter's sort key
(`validation_id` and sorted targets) but differ in `notes`: the stable sort
preserves their insertion order. -/

def outcomeTieX : ValidationOutcome :=
  { validation_id := "V-M1", status := .satisfied, targets := []
    notes := some ["first"] }

def outcomeTieY : ValidationOutcome :=
  { validation_id := "V-M1", status := .satisfied, targets := []
    notes := some ["second"] }

def reportTieA : CanonicalReport :=
  { spec_version := "DIL:spec v0", system_id := "S", state := .valid
    outcomes := [outcomeTieX, outcomeTieY], errors := [] }

def reportTieB : CanonicalReport :=
  { spec_version := "DIL:spec v0", system_id := "S", state := .valid
    outcomes := [outcomeTieY, outcomeTieX], errors := [] }

/-! Fixtures for the emitter-invariance witness: two outcomes with distinct
sort keys, and one error whose refs appear in two key orders. -/

def witOutA : ValidationOutcome :=
  { validation_id := "V-M1", status := .satisfied, targets := [] }

def witOutB : ValidationOutcome :=
  { validation_id := "V-M2", status := .satisfied, targets := [] }

def witErrRefs1 : List (String × JVal) :=
  [("a", .str "1"), ("b", .str "2")]

def witErrRefs2 : List (String × JVal) :=
  [("b", .str "2"), ("a", .str "1")]

def witErr1 : StructuredError :=
  { code := "E", message := "m", refs := witErrRefs1 }

def witErr2 : StructuredError :=
  { code := "E", message := "m", refs := witErrRefs2 }

def witExt1 : List (String × JVal) :=
  [("y", .str "2"), ("x", .str "1")]

def witExt2 : List (String × JVal) :=
  [("x", .str "1"), ("y", .str "2")]

def reportWitA : CanonicalReport :=
  { spec_version := "DIL:spec v0", system_id := "S", state := .valid
    outcomes := [witOutA, witOutB], errors := [witErr1]
    extensions := some witExt1 }

def reportWitB : CanonicalReport :=
  { spec_version := "DIL:spec v0", system_id := "S", state := .valid
    outcomes := [witOutB, witOutA], errors := [witErr2]
    extensions := some witExt2 }

/-! ## Concrete seed specs used to instantiate theorems -/

/-- A spec that produces both an unsatisfied outcome (V-M1: intent with no
association) and an unknown outcome (V-M4: undeclared capability). -/
def seedBoth : ParsedSpec :=
  { spec_version := "DIL:spec v0", system_id := "DIL.BothSeed", raw_text := ""
    sections_raw := [], capabilities := [], intents := [{ id := "I1" }]
    constraints := [], decisions := []
    validations := [{ id := "V4", requires_capability := some "x" }] }

/-- A spec whose only finding is V-M4's undeclared capability. -/
def seedUndecidable : ParsedSpec :=
  { spec_version := "DIL:spec v0", system_id := "DIL.UndecidableSeed", raw_text := ""
    sections_raw := [], capabilities := [], intents := []
    constraints := [], decisions := []
    validations := [{ id := "V4", requires_capability := some "x" }] }

/-- A spec with one intent carrying an explicit `validations: [V1]` line and
zero declared validations. -/
def seedExplicitAssoc : ParsedSpec :=
  { spec_version := "DIL:spec v0", system_id := "DIL.ExplicitSeed", raw_text := ""
    sections_raw :=
      [("intents", "    intent I1 \x7b\n      validations: [V1]\n    \x7d\n")]
    capabilities := [], intents := [{ id := "I1" }]
    constraints := [], decisions := [], validations := [] }

/-- A spec with one untraced decision (empty supports) and one decision with a
broken intent and a broken constraint reference. -/
def seedDecisions : ParsedSpec :=
  { spec_version := "DIL:spec v0", system_id := "DIL.DecisionSeed", raw_text := ""
    sections_raw := [], capabilities := [], intents := [{ id := "I1" }]
    constraints := [{ id := "C1" }]
    decisions :=
      [{ id := "D1", supports := [], respects := [] },
       { id := "D2", supports := ["I1", "IX"], respects := ["CX", "C1"] }]
    validations := [] }

/-- A spec whose raw text contains "O(n)" followed by a word character. -/
def seedLeak : ParsedSpec :=
  { spec_version := "DIL:spec v0", system_id := "DIL.LeakSeed2"
    raw_text := "cost: O(n)x"
    sections_raw := [], capabilities := [], intents := []
    constraints := [], decisions := [], validations := [] }

/-- A spec whose raw text contains the substring "O(n)" and nothing else. -/
def seedON : ParsedSpec :=
  { spec_version := "DIL:spec v0", system_id := "DIL.LeakSeed", raw_text := "O(n)"
    sections_raw := [], capabilities := [], intents := []
    constraints := [], decisions := [], validations := [] }

/-! ## Supporting lemmas -/

theorem contains_supported (v : String) :
    supportedVersions.contains v = true ↔ v = "DIL:spec v0" := by
  simp [supportedVersions]

theorem validateCore_supported (p : ParsedSpec) (h : p.spec_version = "DIL:spec v0") :
    validateCore p =
      ({ spec_version := p.spec_version
         system_id := p.system_id
         state := aggState p
         outcomes := coreOutcomes p
         errors := if aggState p == ReportState.valid then [] else coreErrors p },
       stateExit (aggState p)) := by
  unfold validateCore
  rw [if_pos ((contains_supported p.spec_version).mpr h)]

theorem validateCore_unsupported (p : ParsedSpec) (h : p.spec_version ≠ "DIL:spec v0") :
    validateCore p =
      ({ spec_version := p.spec_version
         system_id := p.system_id
         state := .invalid
         outcomes := []
         errors := [unsupportedError p] }, 1) := by
  unfold validateCore
  rw [if_neg]
  intro hc
  exact h ((contains_supported p.spec_version).mp hc)

theorem any_status_iff (l : List ValidationOutcome) (s : OutcomeStatus) :
    (l.any fun o => o.status == s) = true ↔ ∃ o ∈ l, o.status = s := by
  simp [List.any_eq_true]

theorem vm1Outcome_id (p : ParsedSpec) : (vm1Outcome p).validation_id = "V-M1" :=
  rfl

theorem vm2Outcome_id (p : ParsedSpec) : (vm2Outcome p).validation_id = "V-M2" := by
  unfold vm2Outcome
  split
  · rfl
  split <;> rfl

theorem vm3Outcome_id (p : ParsedSpec) : (vm3Outcome p).validation_id = "V-M3" := by
  unfold vm3Outcome
  split
  · rfl
  split <;> rfl

theorem vm4Outcome_id (p : ParsedSpec) : (vm4Outcome p).validation_id = "V-M4" := by
  unfold vm4Outcome
  split <;> rfl

theorem vm5Outcome_id (p : ParsedSpec) : (vm5Outcome p).validation_id = "V-M5" :=
  rfl

theorem vm1Outcome_status_ne (p : ParsedSpec) :
    (vm1Outcome p).status ≠ OutcomeStatus.inapplicable := by
  unfold vm1Outcome
  split <;> simp

theorem vm2Outcome_status (p : ParsedSpec) :
    (vm2Outcome p).status = OutcomeStatus.satisfied := by
  unfold vm2Outcome
  split
  · rfl
  split <;> rfl

theorem vm3Outcome_status_ne (p : ParsedSpec) :
    (vm3Outcome p).status ≠ OutcomeStatus.inapplicable := by
  unfold vm3Outcome
  split
  · simp
  split <;> simp

theorem vm4Outcome_status_ne (p : ParsedSpec) :
    (vm4Outcome p).status ≠ OutcomeStatus.inapplicable := by
  unfold vm4Outcome
  split <;> simp

theorem vm5Outcome_status_ne (p : ParsedSpec) :
    (vm5Outcome p).status ≠ OutcomeStatus.inapplicable := by
  unfold vm5Outcome
  simp only
  split <;> simp

theorem flatMap_eq_nil_of_forall {α β : Type} (f : α → List β) :
    ∀ l : List α, (∀ a ∈ l, f a = []) → l.flatMap f = []
  | [], _ => rfl
  | a :: l, h => by
    have ha : f a = [] := h a (by simp)
    have hl : l.flatMap f = [] :=
      flatMap_eq_nil_of_forall f l (fun b hb => h b (by simp [hb]))
    simp [List.flatMap_cons, ha, hl]

theorem matchItems_true_testFrom (ps : List PatItem) (prev : Option Char)
    (ds : List Char) (h : matchItems ps prev ds = true) :
    testFrom ps prev ds = true := by
  cases ds with
  | nil => exact h
  | cons d rest =>
    unfold testFrom
    rw [h, Bool.true_or]

theorem testFrom_of_match (ps : List PatItem) :
    ∀ (pre : List Char) (prev : Option Char) (ds : List Char),
      matchItems ps (lastCharOf prev pre) ds = true →
      testFrom ps prev (pre ++ ds) = true
  | [], prev, ds, h => matchItems_true_testFrom ps prev ds h
  | x :: xs, prev, ds, h => by
    have ih := testFrom_of_match ps xs (some x) ds h
    rw [List.cons_append]
    unfold testFrom
    rw [ih, Bool.or_true]

/-- The `O(n)` signal matches at a position whose preceding context is not a
word character when the text continues with `O(n)` and then a word
character. -/
theorem matchOn (a : List Char) (b : List Char) (c : Char) (cs : List Char)
    (hb : b = c :: cs) (hc : isWordChar c = true)
    (ha : ∀ lc, lastCharOf none a = some lc → isWordChar lc = false) :
    matchItems patON (lastCharOf none a) ('O' :: '(' :: 'n' :: ')' :: b) = true := by
  have hpw : (match lastCharOf none a with
      | some c => isWordChar c
      | none => false) = false := by
    rcases hl : lastCharOf none a with _ | lc
    · rfl
    · exact ha lc hl
  subst hb
  simp [patON, matchItems, wsTails, hpw, hc, isSpaceChar, isWordChar]
  simp [isWordChar] at hpw hc
  exact ⟨hpw, hc⟩

theorem isEmpty_false_of_ne_nil {α : Type} {l : List α} (h : l ≠ []) :
    l.isEmpty = false := by
  cases l with
  | nil => exact absurd rfl h
  | cons a t => rfl

theorem vm1Errors_eq_nil (p : ParsedSpec)
    (h : (vm1Outcome p).status ≠ OutcomeStatus.unsatisfied) :
    vm1Errors p = [] := by
  unfold vm1Outcome at h
  simp only at h
  by_cases ht : vm1UnsatTargets p ≠ []
  · rw [if_pos ht] at h
    exact absurd rfl h
  · push_neg at ht
    unfold vm1UnsatTargets at ht
    have hu : vm1Unassoc p = [] := List.map_eq_nil_iff.mp ht
    unfold vm1Errors
    rw [hu]
    rfl

theorem vm3Errors_eq_nil (p : ParsedSpec)
    (h : (vm3Outcome p).status ≠ OutcomeStatus.unsatisfied) :
    vm3Errors p = [] := by
  have hbt : vm3BadTargets p = [] := by
    by_contra hne
    unfold vm3Outcome at h
    rw [if_pos hne] at h
    exact absurd rfl h
  unfold vm3BadTargets at hbt
  have hfil := List.map_eq_nil_iff.mp hbt
  have hall : ∀ d ∈ p.decisions, vm3DecisionFails p d ≠ true := by
    intro d hd hf
    have : d ∈ p.decisions.filter fun d => vm3DecisionFails p d :=
      List.mem_filter.mpr ⟨hd, hf⟩
    rw [hfil] at this
    exact List.not_mem_nil d this
  unfold vm3Errors
  apply flatMap_eq_nil_of_forall
  intro d hd
  have hf : vm3DecisionFails p d = false :=
    Bool.eq_false_iff.mpr (hall d hd)
  unfold vm3DecisionFails at hf
  rw [Bool.or_eq_false_iff, Bool.or_eq_false_iff] at hf
  obtain ⟨⟨hs, hbi⟩, hbc⟩ := hf
  unfold vm3DecisionErrors
  rw [if_neg (by rw [hs]; simp), if_neg (by rw [hbi, hbc]; simp)]

theorem vm5Errors_eq_nil (p : ParsedSpec) (h : vm5Leak p = false) :
    vm5Errors p = [] := by
  unfold vm5Errors
  rw [if_neg (by rw [h]; simp)]

theorem matchSeverity_head (l : List Char) (sev : String)
    (h : matchSeverity l = some sev) : ∃ xs, l = 's' :: xs := by
  cases l with
  | nil =>
    unfold matchSeverity at h
    simp [dropLit] at h
  | cons x xs =>
    refine ⟨xs, ?_⟩
    by_cases hx : x = 's'
    · rw [hx]
    · exfalso
      unfold matchSeverity at h
      have hd : dropLit "severity".data (x :: xs) = none := by
        show dropLit ('s' :: "everity".data) (x :: xs) = none
        unfold dropLit
        rw [if_neg hx]
      rw [hd] at h
      simp at h

/-- A line that matches the severity regex cannot match the constraint
declaration regex: the two keywords differ in their first character. -/
theorem severity_not_constraint (l : List Char) (sev : String)
    (h : matchSeverity l = some sev) :
    matchKwIdent "constraint".data l = none := by
  obtain ⟨xs, hl⟩ := matchSeverity_head l sev h
  subst hl
  unfold matchKwIdent
  have hd : dropLit "constraint".data ('s' :: xs) = none := by
    show dropLit ('c' :: "onstraint".data) ('s' :: xs) = none
    unfold dropLit
    rw [if_neg (by decide)]
  rw [hd]

end Dil

namespace Dil

/-! ### Order lemmas for the comparator-based sorts -/

theorem char_toNat_inj {a b : Char} (h : a.toNat = b.toNat) : a = b := by
  have ha := Char.ofNat_toNat a
  rw [← ha, h, Char.ofNat_toNat]

theorem string_data_inj {a b : String} (h : a.data = b.data) : a = b := by
  cases a
  cases b
  simp only at h
  rw [h]

theorem strCmp_eq_iff : ∀ xs ys : List Char, strCmp xs ys = .eq ↔ xs = ys := by
  intro xs
  induction xs with
  | nil =>
    intro ys
    cases ys <;> simp [strCmp]
  | cons x xs ih =>
    intro ys
    cases ys with
    | nil => simp [strCmp]
    | cons y ys =>
      unfold strCmp
      by_cases h1 : x.toNat < y.toNat
      · rw [if_pos h1]
        constructor
        · intro hc
          exact absurd hc (by decide)
        · intro he
          injection he with hx _
          subst hx
          omega
      · rw [if_neg h1]
        by_cases h2 : y.toNat < x.toNat
        · rw [if_pos h2]
          constructor
          · intro hc
            exact absurd hc (by decide)
          · intro he
            injection he with hx _
            subst hx
            omega
        · rw [if_neg h2]
          have hx : x = y := char_toNat_inj (by omega)
          subst hx
          rw [ih ys]
          constructor
          · intro he
            rw [he]
          · intro he
            injection he

theorem strCmp_gt_iff_lt : ∀ xs ys : List Char,
    strCmp xs ys = .gt ↔ strCmp ys xs = .lt := by
  intro xs
  induction xs with
  | nil =>
    intro ys
    cases ys <;> simp [strCmp]
  | cons x xs ih =>
    intro ys
    cases ys with
    | nil => simp [strCmp]
    | cons y ys =>
      unfold strCmp
      by_cases h1 : x.toNat < y.toNat
      · rw [if_pos h1, if_neg (by omega), if_pos h1]
        constructor
        · intro hc
          exact absurd hc (by decide)
        · intro hc
          exact absurd hc.symm (by decide)
      · rw [if_neg h1]
        by_cases h2 : y.toNat < x.toNat
        · rw [if_pos h2, if_pos h2]
          simp
        · rw [if_neg h2, if_neg h1, if_neg h2]
          exact ih ys

theorem strCmp_le_trans : ∀ xs ys zs : List Char,
    strCmp xs ys ≠ .gt → strCmp ys zs ≠ .gt → strCmp xs zs ≠ .gt := by
  intro xs
  induction xs with
  | nil =>
    intro ys zs _ _
    cases zs <;> simp [strCmp]
  | cons x xs ih =>
    intro ys zs h1 h2
    cases ys with
    | nil => simp [strCmp] at h1
    | cons y ys =>
      cases zs with
      | nil => simp [strCmp] at h2
      | cons z zs =>
        unfold strCmp at h1 h2 ⊢
        by_cases hyx : y.toNat < x.toNat
        · rw [if_neg (by omega), if_pos hyx] at h1
          exact absurd rfl h1
        · by_cases hzy : z.toNat < y.toNat
          · rw [if_neg (by omega), if_pos hzy] at h2
            exact absurd rfl h2
          · by_cases hxy : x.toNat < y.toNat
            · rw [if_pos (by omega)]
              exact fun hc => absurd hc (by decide)
            · by_cases hyz : y.toNat < z.toNat
              · rw [if_pos (by omega)]
                exact fun hc => absurd hc (by decide)
              · rw [if_neg (by omega), if_neg (by omega)]
                rw [if_neg hxy, if_neg hyx] at h1
                rw [if_neg hyz, if_neg hzy] at h2
                exact ih ys zs h1 h2

theorem strLE_total (a b : String) : strLE a b ∨ strLE b a := by
  unfold strLE strCmpS
  by_cases h : strCmp a.data b.data = .gt
  · right
    rw [(strCmp_gt_iff_lt a.data b.data).mp h]
    exact fun hc => absurd hc (by decide)
  · exact Or.inl h

theorem strLE_trans {a b c : String} (h1 : strLE a b) (h2 : strLE b c) :
    strLE a c :=
  strCmp_le_trans a.data b.data c.data h1 h2

theorem strLE_antisymm {a b : String} (h1 : strLE a b) (h2 : strLE b a) :
    a = b := by
  apply string_data_inj
  apply (strCmp_eq_iff a.data b.data).mp
  unfold strLE strCmpS at h1 h2
  cases hc : strCmp a.data b.data with
  | eq => rfl
  | gt => exact absurd hc h1
  | lt => exact absurd ((strCmp_gt_iff_lt b.data a.data).mpr hc) h2

theorem strCmpS_refl (a : String) : strCmpS a a = .eq :=
  (strCmp_eq_iff a.data a.data).mpr rfl

theorem pairLE_fst {a b : String × String} (h : pairLE a b) : strLE a.1 b.1 := by
  intro hg
  unfold pairLE cmpPair at h
  rw [show strCmpS a.1 b.1 = .gt from hg] at h
  exact h rfl

theorem pairLE_of_fst_lt {a b : String × String}
    (h : strCmpS a.1 b.1 = .lt) : pairLE a b := by
  unfold pairLE cmpPair
  rw [h]
  simp

theorem pairLE_iff_of_fst_eq {a b : String × String}
    (h : strCmpS a.1 b.1 = .eq) : pairLE a b ↔ strLE a.2 b.2 := by
  unfold pairLE cmpPair
  rw [h]
  exact Iff.rfl

theorem pairLE_total (a b : String × String) : pairLE a b ∨ pairLE b a := by
  rcases hc : strCmpS a.1 b.1 with _ | _ | _
  · exact Or.inl (pairLE_of_fst_lt hc)
  · have hc' : strCmpS b.1 a.1 = .eq := by
      have he : a.1 = b.1 := string_data_inj ((strCmp_eq_iff _ _).mp hc)
      rw [he]
      exact strCmpS_refl b.1
    rcases strLE_total a.2 b.2 with h | h
    · exact Or.inl ((pairLE_iff_of_fst_eq hc).mpr h)
    · exact Or.inr ((pairLE_iff_of_fst_eq hc').mpr h)
  · have hc' : strCmpS b.1 a.1 = .lt := (strCmp_gt_iff_lt a.1.data b.1.data).mp hc
    exact Or.inr (pairLE_of_fst_lt hc')

theorem pairLE_trans {a b c : String × String}
    (h1 : pairLE a b) (h2 : pairLE b c) : pairLE a c := by
  have k1 : strLE a.1 b.1 := pairLE_fst h1
  have k2 : strLE b.1 c.1 := pairLE_fst h2
  have k3 : strLE a.1 c.1 := strLE_trans k1 k2
  rcases hac : strCmpS a.1 c.1 with _ | _ | _
  · exact pairLE_of_fst_lt hac
  · have hfst : a.1 = c.1 := string_data_inj ((strCmp_eq_iff _ _).mp hac)
    have hba : strLE b.1 a.1 := by
      rw [hfst]
      exact k2
    have heq : a.1 = b.1 := strLE_antisymm k1 hba
    have hab : strCmpS a.1 b.1 = .eq := by
      rw [heq]
      exact strCmpS_refl b.1
    have hbc : strCmpS b.1 c.1 = .eq := by
      rw [← heq, ← hfst]
      exact strCmpS_refl a.1
    exact (pairLE_iff_of_fst_eq hac).mpr
      (strLE_trans ((pairLE_iff_of_fst_eq hab).mp h1)
        ((pairLE_iff_of_fst_eq hbc).mp h2))
  · exact absurd hac k3

theorem pairLE_antisymm {a b : String × String}
    (h1 : pairLE a b) (h2 : pairLE b a) : a = b := by
  have k1 : strLE a.1 b.1 := pairLE_fst h1
  have k2 : strLE b.1 a.1 := pairLE_fst h2
  have hfst : a.1 = b.1 := strLE_antisymm k1 k2
  have hab : strCmpS a.1 b.1 = .eq := by
    rw [hfst]
    exact strCmpS_refl b.1
  have hba : strCmpS b.1 a.1 = .eq := by
    rw [hfst]
    exact strCmpS_refl b.1
  have hsnd : a.2 = b.2 :=
    strLE_antisymm ((pairLE_iff_of_fst_eq hab).mp h1)
      ((pairLE_iff_of_fst_eq hba).mp h2)
  exact Prod.ext hfst hsnd

instance : IsTotal String strLE :=
  ⟨strLE_total⟩

instance : IsTrans String strLE :=
  ⟨fun _ _ _ => strLE_trans⟩

instance : IsTotal (String × JVal) kvLE :=
  ⟨fun a b => strLE_total a.1 b.1⟩

instance : IsTrans (String × JVal) kvLE :=
  ⟨fun _ _ _ h1 h2 => strLE_trans h1 h2⟩

instance : IsTotal ValidationOutcome outLE :=
  ⟨fun a b => pairLE_total (outKey a) (outKey b)⟩

instance : IsTrans ValidationOutcome outLE :=
  ⟨fun _ _ _ => pairLE_trans⟩

instance : IsTotal StructuredError errLE :=
  ⟨fun a b => pairLE_total (errKey a) (errKey b)⟩

instance : IsTrans StructuredError errLE :=
  ⟨fun _ _ _ => pairLE_trans⟩

/-- Two sorted lists that are permutations of each other are equal, provided
the order is antisymmetric on the elements involved. -/
theorem eq_of_perm_of_sorted_of_antisymmOn {α : Type} {r : α → α → Prop} :
    ∀ (l₁ l₂ : List α), l₁.Perm l₂ → l₁.Sorted r → l₂.Sorted r →
      (∀ a ∈ l₁, ∀ b ∈ l₁, r a b → r b a → a = b) → l₁ = l₂ := by
  intro l₁
  induction l₁ with
  | nil =>
    intro l₂ p _ _ _
    exact p.nil_eq
  | cons a t₁ ih =>
    intro l₂ p s₁ s₂ hanti
    cases l₂ with
    | nil => exact absurd p.eq_nil (by simp)
    | cons b t₂ =>
      have hab : a = b := by
        have hbmem : b ∈ a :: t₁ := p.symm.subset (List.mem_cons_self b t₂)
        rcases List.mem_cons.mp hbmem with he | hbt
        · exact he.symm
        · have hamem : a ∈ b :: t₂ := p.subset (List.mem_cons_self a t₁)
          rcases List.mem_cons.mp hamem with he | hat
          · exact he
          · have h1 : r a b := (List.sorted_cons.mp s₁).1 b hbt
            have h2 : r b a := (List.sorted_cons.mp s₂).1 a hat
            exact hanti a (List.mem_cons_self a t₁) b hbmem h1 h2
      subst hab
      have e : t₁ = t₂ :=
        ih t₂ p.cons_inv (List.sorted_cons.mp s₁).2 (List.sorted_cons.mp s₂).2
          (fun x hx y hy hxy hyx =>
            hanti x (List.mem_cons_of_mem a hx) y (List.mem_cons_of_mem a hy) hxy hyx)
      rw [e]

/-- Sorting by key is invariant under permutation when the keys are
duplicate-free. -/
theorem sortKVs_perm_eq {l₁ l₂ : List (String × JVal)} (hp : l₁.Perm l₂)
    (hnd : (l₁.map Prod.fst).Nodup) : sortKVs l₁ = sortKVs l₂ := by
  apply eq_of_perm_of_sorted_of_antisymmOn _ _
    (((l₁.perm_insertionSort kvLE).trans hp).trans (l₂.perm_insertionSort kvLE).symm)
    (List.sorted_insertionSort kvLE l₁) (List.sorted_insertionSort kvLE l₂)
  intro a ha b hb hab hba
  have ha' : a ∈ l₁ := (l₁.perm_insertionSort kvLE).subset ha
  have hb' : b ∈ l₁ := (l₁.perm_insertionSort kvLE).subset hb
  have hk : a.1 = b.1 := strLE_antisymm hab hba
  exact List.inj_on_of_nodup_map hnd ha' hb' hk

theorem toList_jobj : ∀ l : List (String × JVal), (jobj l).toList = l
  | [] => rfl
  | (k, v) :: ps => by rw [jobj, JObj.toList, toList_jobj ps]

theorem toList_jarr : ∀ l : List JVal, (jarr l).toList = l
  | [] => rfl
  | x :: xs => by rw [jarr, JArr.toList, toList_jarr xs]

theorem deepSortEntries_eq_map : ∀ o : JObj,
    deepSortEntries o = o.toList.map (fun p => (p.1, deepSortKeys p.2))
  | .nil => rfl
  | .cons k v ps => by
    rw [deepSortEntries, JObj.toList, List.map_cons, deepSortEntries_eq_map ps]

theorem wfObj_values : ∀ (o : JObj), WFObj o → ∀ p ∈ o.toList, WFKeys p.2
  | .nil, _, p, hp => absurd hp (by simp [JObj.toList])
  | .cons k v ps, hw, p, hp => by
    have hv : WFKeys v := by cases hw with | cons h _ => exact h
    have hps : WFObj ps := by cases hw with | cons _ h => exact h
    rw [JObj.toList] at hp
    rcases List.mem_cons.mp hp with he | ht
    · rw [he]
      exact hv
    · exact wfObj_values ps hps p ht

mutual

theorem jequiv_refl : ∀ v : JVal, JEquiv v v
  | .null => .null
  | .bool b => .bool b
  | .num n => .num n
  | .str s => .str s
  | .arr xs => .arr (jequivArr_refl xs)
  | .obj kvs => .obj (List.Perm.refl _) (jequivObjList_refl kvs)

theorem jequivArr_refl : ∀ xs : JArr, JEquivArr xs xs
  | .nil => .nil
  | .cons x xs => .cons (jequiv_refl x) (jequivArr_refl xs)

theorem jequivObjList_refl : ∀ o : JObj, JEquivKVs o.toList o.toList
  | .nil => .nil
  | .cons k v ps => .cons k (jequiv_refl v) (jequivObjList_refl ps)

end

theorem jequivKVs_refl (l : List (String × JVal)) : JEquivKVs l l := by
  have h := jequivObjList_refl (jobj l)
  rwa [toList_jobj] at h

/-- Key-order equivalence is invisible to `deepSortKeys` on values with
duplicate-free keys (proved by the mutual induction on the derivation). -/
theorem deepSortKeys_eq_of_jequiv {v₁ v₂ : JVal} (h : JEquiv v₁ v₂) :
    WFKeys v₁ → deepSortKeys v₁ = deepSortKeys v₂ := by
  refine @JEquiv.rec
    (fun v₁ v₂ _ => WFKeys v₁ → deepSortKeys v₁ = deepSortKeys v₂)
    (fun xs ys _ => WFArr xs → deepSortArr xs = deepSortArr ys)
    (fun ps qs _ => (∀ p ∈ ps, WFKeys p.2) →
      ps.map (fun p => (p.1, deepSortKeys p.2))
        = qs.map (fun p => (p.1, deepSortKeys p.2)))
    ?_ ?_ ?_ ?_ ?_ ?_ ?_ ?_ ?_ ?_ v₁ v₂ h
  · intro _
    rfl
  · intro b _
    rfl
  · intro n _
    rfl
  · intro s _
    rfl
  · intro xs ys _ ih hwf
    have hwa : WFArr xs := by cases hwf with | arr h => exact h
    simp only [deepSortKeys]
    rw [ih hwa]
  · intro l₁ l₂ mid hperm hkvs ih hwf
    have hnd : (l₁.toList.map Prod.fst).Nodup := by
      cases hwf with | obj h _ => exact h
    have hv : WFObj l₁ := by
      cases hwf with | obj _ h => exact h
    have hmidwf : ∀ p ∈ mid, WFKeys p.2 := fun p hp =>
      wfObj_values l₁ hv p (hperm.symm.subset hp)
    have hmap := ih hmidwf
    have hpm : (l₁.toList.map (fun p => (p.1, deepSortKeys p.2))).Perm
        (mid.map (fun p => (p.1, deepSortKeys p.2))) := hperm.map _
    have hndm : ((l₁.toList.map (fun p => (p.1, deepSortKeys p.2))).map
        Prod.fst).Nodup := by
      rw [List.map_map]
      exact hnd
    simp only [deepSortKeys]
    rw [deepSortEntries_eq_map, deepSortEntries_eq_map,
      sortKVs_perm_eq hpm hndm, hmap]
  · intro _
    rfl
  · intro x y xs ys _ _ ih1 ih2 hwf
    have h1 : WFKeys x := by cases hwf with | cons h _ => exact h
    have h2 : WFArr xs := by cases hwf with | cons _ h => exact h
    rw [deepSortArr, deepSortArr, ih1 h1, ih2 h2]
  · intro _
    rfl
  · intro k v w ps qs _ _ ih1 ih2 hwf
    have h1 : WFKeys v := hwf (k, v) (List.mem_cons_self _ _)
    have h2 : ∀ p ∈ ps, WFKeys p.2 := fun p hp =>
      hwf p (List.mem_cons_of_mem _ hp)
    rw [List.map_cons, List.map_cons, ih1 h1, ih2 h2]

/-- Key order inside a value never affects its stable stringification. -/
theorem stableStringify_eq_of_jequiv {v₁ v₂ : JVal} (h : JEquiv v₁ v₂)
    (hwf : WFKeys v₁) : stableStringify v₁ = stableStringify v₂ := by
  unfold stableStringify
  rw [deepSortKeys_eq_of_jequiv h hwf]

theorem normalizeError_eq (e : StructuredError) : normalizeError e = e :=
  rfl

theorem map_normalizeError (l : List StructuredError) :
    l.map normalizeError = l := by
  induction l with
  | nil => rfl
  | cons e t ih => rw [List.map_cons, normalizeError_eq, ih]

/-- Key order inside refs never affects an error's computed sort position. -/
theorem errKey_eq_of_errEquiv {e₁ e₂ : StructuredError} (h : ErrEquiv e₁ e₂)
    (hwf : WFKeys (.obj (jobj e₁.refs))) : errKey e₁ = errKey e₂ := by
  obtain ⟨hc, _, _, _, hrefs⟩ := h
  unfold errKey
  rw [hc, stableStringify_eq_of_jequiv hrefs hwf]

theorem forall₂_orderedInsert {α : Type} (E : α → α → Prop) (r : α → α → Prop)
    [DecidableRel r]
    (hresp : ∀ a b x y, E a b → E x y → (r a x ↔ r b y)) :
    ∀ {l₁ l₂ : List α} {a b : α}, E a b → List.Forall₂ E l₁ l₂ →
      List.Forall₂ E (l₁.orderedInsert r a) (l₂.orderedInsert r b) := by
  intro l₁ l₂ a b hab hl
  induction hl with
  | nil => exact List.Forall₂.cons hab List.Forall₂.nil
  | @cons x y t₁ t₂ hxy hl ih =>
    rw [List.orderedInsert, List.orderedInsert]
    by_cases hr : r a x
    · rw [if_pos hr, if_pos ((hresp _ _ _ _ hab hxy).mp hr)]
      exact .cons hab (.cons hxy hl)
    · rw [if_neg hr, if_neg (fun hc => hr ((hresp _ _ _ _ hab hxy).mpr hc))]
      exact .cons hxy ih

/-- A stable sort sends pointwise-related lists (under a relation that the
comparator cannot distinguish) to pointwise-related lists. -/
theorem forall₂_insertionSort {α : Type} (E : α → α → Prop) (r : α → α → Prop)
    [DecidableRel r]
    (hresp : ∀ a b x y, E a b → E x y → (r a x ↔ r b y)) :
    ∀ {l₁ l₂ : List α}, List.Forall₂ E l₁ l₂ →
      List.Forall₂ E (l₁.insertionSort r) (l₂.insertionSort r) := by
  intro l₁ l₂ h
  induction h with
  | nil => exact .nil
  | cons hab h ih =>
    rw [List.insertionSort, List.insertionSort]
    exact forall₂_orderedInsert E r hresp hab ih

theorem forall₂_imp_mem {α : Type} {P Q : α → α → Prop} :
    ∀ {l₁ l₂ : List α}, List.Forall₂ P l₁ l₂ →
      (∀ a b, a ∈ l₁ → P a b → Q a b) → List.Forall₂ Q l₁ l₂ := by
  intro l₁ l₂ h
  induction h with
  | nil => exact fun _ => .nil
  | @cons x y t₁ t₂ hxy h ih =>
    intro himp
    exact .cons (himp x y (List.mem_cons_self _ _) hxy)
      (ih fun a b ha => himp a b (List.mem_cons_of_mem _ ha))

theorem forall₂_map_rel {α : Type} {P : α → α → Prop} (f : α → JVal)
    (hf : ∀ a b, P a b → JEquiv (f a) (f b)) :
    ∀ {l₁ l₂ : List α}, List.Forall₂ P l₁ l₂ →
      List.Forall₂ JEquiv (l₁.map f) (l₂.map f) := by
  intro l₁ l₂ h
  induction h with
  | nil => exact .nil
  | cons hxy _ ih => exact .cons (hf _ _ hxy) ih

theorem jequivKVs_append : ∀ (as₁ as₂ bs₁ bs₂ : List (String × JVal)),
    JEquivKVs as₁ as₂ → JEquivKVs bs₁ bs₂ → JEquivKVs (as₁ ++ bs₁) (as₂ ++ bs₂)
  | [], as₂, _, _, h1, h2 => by
    cases h1
    exact h2
  | (k, v) :: ps, _, _, _, h1, h2 => by
    cases h1 with
    | cons _ hv hps =>
      rw [List.cons_append, List.cons_append]
      exact .cons k hv (jequivKVs_append ps _ _ _ hps h2)

theorem jequivArr_of_forall₂ : ∀ {xs ys : List JVal},
    List.Forall₂ JEquiv xs ys → JEquivArr (jarr xs) (jarr ys)
  | _, _, .nil => .nil
  | _, _, .cons h t => .cons h (jequivArr_of_forall₂ t)

theorem errorToJVal_jequiv {e₁ e₂ : StructuredError} (h : ErrEquiv e₁ e₂) :
    JEquiv (errorToJVal e₁) (errorToJVal e₂) := by
  obtain ⟨hc, hm, hev, hnt, hrefs⟩ := h
  unfold errorToJVal
  rw [← hc, ← hm, ← hev, ← hnt]
  apply JEquiv.obj (List.Perm.refl _)
  rw [toList_jobj, toList_jobj]
  exact .cons _ (jequiv_refl _) (.cons _ (jequiv_refl _)
    (.cons _ hrefs (jequivKVs_refl _)))

theorem reportToJVal_jequiv {r₁ r₂ : CanonicalReport}
    (hsv : r₁.spec_version = r₂.spec_version)
    (hsi : r₁.system_id = r₂.system_id)
    (hst : r₁.state = r₂.state)
    (hnotes : r₁.notes = r₂.notes)
    (hext : ExtEquiv r₁.extensions r₂.extensions)
    (hout : r₁.outcomes = r₂.outcomes)
    (herr : List.Forall₂ ErrEquiv r₁.errors r₂.errors) :
    JEquiv (reportToJVal r₁) (reportToJVal r₂) := by
  unfold reportToJVal
  rw [← hsv, ← hsi, ← hst, ← hnotes, ← hout]
  apply JEquiv.obj (List.Perm.refl _)
  rw [toList_jobj, toList_jobj]
  refine .cons _ (jequiv_refl _) (.cons _ (jequiv_refl _) (.cons _ (jequiv_refl _)
    (.cons _ (jequiv_refl _) (.cons _ ?_ ?_))))
  · exact .arr (jequivArr_of_forall₂ (forall₂_map_rel errorToJVal
      (fun _ _ h => errorToJVal_jequiv h) herr))
  · rcases h₁ : r₁.extensions with _ | kvs₁ <;>
      rcases h₂ : r₂.extensions with _ | kvs₂ <;>
      rw [h₁, h₂] at hext
    · exact jequivKVs_refl _
    · exact nomatch hext
    · exact nomatch hext
    · cases hext with
      | some h =>
        exact jequivKVs_append _ _ _ _ (jequivKVs_refl _) (.cons _ h .nil)

theorem wfArr_of_forall : ∀ (xs : List JVal), (∀ x ∈ xs, WFKeys x) → WFArr (jarr xs)
  | [], _ => .nil
  | x :: xs, h =>
    .cons (h x (List.mem_cons_self _ _))
      (wfArr_of_forall xs fun y hy => h y (List.mem_cons_of_mem _ hy))

theorem wfObj_of_forall : ∀ (l : List (String × JVal)),
    (∀ p ∈ l, WFKeys p.2) → WFObj (jobj l)
  | [], _ => .nil
  | (k, v) :: ps, h =>
    .cons (h (k, v) (List.mem_cons_self _ _))
      (wfObj_of_forall ps fun p hp => h p (List.mem_cons_of_mem _ hp))

theorem wfKeys_strArr (l : List String) : WFKeys (.arr (jarr (l.map .str))) :=
  .arr (wfArr_of_forall _ fun x hx => by
    obtain ⟨s, _, rfl⟩ := List.mem_map.mp hx
    exact .str s)

theorem wfKeys_evidence (e : EvidenceItem) : WFKeys (evidenceToJVal e) := by
  unfold evidenceToJVal
  refine .obj ?_ (wfObj_of_forall _ ?_)
  · rw [toList_jobj]
    simp
  · intro p hp
    simp only [List.mem_cons, List.not_mem_nil, or_false] at hp
    rcases hp with h | h <;> subst h <;> exact .str _

theorem wfKeys_evArr (ev : List EvidenceItem) :
    WFKeys (.arr (jarr (ev.map evidenceToJVal))) :=
  .arr (wfArr_of_forall _ fun x hx => by
    obtain ⟨e, _, rfl⟩ := List.mem_map.mp hx
    exact wfKeys_evidence e)

theorem wfKeys_outcome (o : ValidationOutcome) : WFKeys (outcomeToJVal o) := by
  unfold outcomeToJVal
  rcases o.reason with _ | r <;> rcases o.evidence with _ | ev <;>
    rcases o.notes with _ | ns <;>
    (refine WFKeys.obj ?_ (wfObj_of_forall _ ?_)) <;>
    first
    | (rw [toList_jobj]; simp)
    | (intro p hp
       simp only [List.append_nil, List.nil_append, List.append_assoc,
         List.cons_append, List.mem_cons, List.mem_append,
         List.mem_singleton, List.not_mem_nil, or_false] at hp
       rcases hp with h | h | h | h | h | h <;> try subst h
       all_goals first
       | exact .str _
       | exact wfKeys_strArr _
       | exact wfKeys_evArr _)

theorem wfKeys_error (e : StructuredError)
    (h : WFKeys (.obj (jobj e.refs))) : WFKeys (errorToJVal e) := by
  unfold errorToJVal
  rcases e.evidence with _ | ev <;> rcases e.notes with _ | ns <;>
    (refine WFKeys.obj ?_ (wfObj_of_forall _ ?_)) <;>
    first
    | (rw [toList_jobj]; simp)
    | (intro p hp
       simp only [List.append_nil, List.nil_append, List.append_assoc,
         List.cons_append, List.mem_cons, List.mem_append,
         List.mem_singleton, List.not_mem_nil, or_false] at hp
       rcases hp with h2 | h2 | h2 | h2 | h2 <;> try subst h2
       all_goals first
       | exact .str _
       | exact h
       | exact wfKeys_strArr _
       | exact wfKeys_evArr _)

theorem wfKeys_report (r : CanonicalReport)
    (herr : ∀ e ∈ r.errors, WFKeys (.obj (jobj e.refs)))
    (hextwf : ∀ kvs, r.extensions = some kvs → WFKeys (.obj (jobj kvs))) :
    WFKeys (reportToJVal r) := by
  unfold reportToJVal
  rcases r.notes with _ | ns <;> rcases hx : r.extensions with _ | kvs <;>
    (refine WFKeys.obj ?_ (wfObj_of_forall _ ?_)) <;>
    first
    | (rw [toList_jobj]; simp)
    | (intro p hp
       simp only [List.append_nil, List.nil_append, List.append_assoc,
         List.cons_append, List.mem_cons, List.mem_append,
         List.mem_singleton, List.not_mem_nil, or_false] at hp
       rcases hp with h2 | h2 | h2 | h2 | h2 | h2 | h2 <;> try subst h2
       all_goals first
       | exact .str _
       | exact wfKeys_strArr _
       | exact hextwf kvs hx
       | exact WFKeys.arr (wfArr_of_forall _ fun x hxm => by
           obtain ⟨o, _, rfl⟩ := List.mem_map.mp hxm
           exact wfKeys_outcome o)
       | exact WFKeys.arr (wfArr_of_forall _ fun x hxm => by
           obtain ⟨e, hmem, rfl⟩ := List.mem_map.mp hxm
           exact wfKeys_error e (herr e hmem)))

/-! ## Claim theorems -/

/-- C2. For every input ParsedSpec, if the report returned by validateCore has
state "valid" then its errors list is exactly the empty list, regardless of
what errors were accumulated internally during rule evaluation. -/
theorem valid_implies_no_errors (p : ParsedSpec)
    (h : (validateCore p).1.state = ReportState.valid) :
    (validateCore p).1.errors = [] := by
  by_cases hv : p.spec_version = "DIL:spec v0"
  · rw [validateCore_supported p hv] at h ⊢
    simp only at h ⊢
    rw [h]
    rfl
  · rw [validateCore_unsupported p hv] at h
    simp at h

/-- Witness for C2: a concrete ParsedSpec whose report is valid, with an
empty errors list. -/
theorem valid_implies_no_errors_witness :
    (validateCore
      { spec_version := "DIL:spec v0", system_id := "S", raw_text := ""
        sections_raw := [], capabilities := [], intents := [], constraints := []
        decisions := [], validations := [] }).1.state = ReportState.valid ∧
    (validateCore
      { spec_version := "DIL:spec v0", system_id := "S", raw_text := ""
        sections_raw := [], capabilities := [], intents := [], constraints := []
        decisions := [], validations := [] }).1.errors = [] :=
  ⟨by decide, valid_implies_no_errors _ (by decide)⟩

/-- C4. A ParsedSpec whose spec_version is not "DIL:spec v0" short-circuits:
state invalid, no outcomes, exit code 1, and exactly one error, of code
UNSUPPORTED_SPEC_VERSION, whose refs carry the declared version under `spec`
and the supported set under `supported`. -/
theorem unsupported_version_short_circuit (p : ParsedSpec)
    (h : p.spec_version ≠ "DIL:spec v0") :
    (validateCore p).1.state = ReportState.invalid ∧
    (validateCore p).1.outcomes = [] ∧
    (validateCore p).2 = 1 ∧
    (validateCore p).1.errors.length = 1 ∧
    ∀ e ∈ (validateCore p).1.errors,
      e.code = "UNSUPPORTED_SPEC_VERSION" ∧
      e.refs.lookup "spec" = some (.str p.spec_version) ∧
      e.refs.lookup "supported" = some (.arr (jarr [.str "DIL:spec v0"])) := by
  rw [validateCore_unsupported p h]
  refine ⟨rfl, rfl, rfl, rfl, ?_⟩
  intro e he
  simp only [List.mem_singleton] at he
  subst he
  exact ⟨rfl, rfl, rfl⟩

/-- C10. On every supported input, validateCore produces exactly five
outcomes, one per rule, with validation_ids V-M1..V-M5 in order; and on no
input at all does an outcome carry the status "inapplicable", although the
outcome data model admits it. -/
theorem five_outcomes_no_inapplicable (p : ParsedSpec) :
    (p.spec_version = "DIL:spec v0" →
      (validateCore p).1.outcomes.map (fun o => o.validation_id)
        = ["V-M1", "V-M2", "V-M3", "V-M4", "V-M5"]) ∧
    ∀ o ∈ (validateCore p).1.outcomes, o.status ≠ OutcomeStatus.inapplicable := by
  constructor
  · intro h
    rw [validateCore_supported p h]
    simp [coreOutcomes, vm1Outcome_id, vm2Outcome_id, vm3Outcome_id,
      vm4Outcome_id, vm5Outcome_id]
  · intro o ho
    by_cases hv : p.spec_version = "DIL:spec v0"
    · rw [validateCore_supported p hv] at ho
      simp only [coreOutcomes, List.mem_cons, List.not_mem_nil, or_false] at ho
      rcases ho with h | h | h | h | h <;> subst h
      · exact vm1Outcome_status_ne p
      · rw [vm2Outcome_status]
        simp
      · exact vm3Outcome_status_ne p
      · exact vm4Outcome_status_ne p
      · exact vm5Outcome_status_ne p
    · rw [validateCore_unsupported p hv] at ho
      simp at ho

/-- Witness for C10 at a concrete spec: the five rule ids in order, and a
concrete member outcome that is not "inapplicable". -/
theorem five_outcomes_no_inapplicable_witness :
    (validateCore seedBoth).1.outcomes.map (fun o => o.validation_id)
        = ["V-M1", "V-M2", "V-M3", "V-M4", "V-M5"] ∧
    (vm1Outcome seedBoth).status ≠ OutcomeStatus.inapplicable :=
  ⟨(five_outcomes_no_inapplicable seedBoth).1 rfl,
   (five_outcomes_no_inapplicable seedBoth).2 (vm1Outcome seedBoth) (by decide)⟩

/-- C1. Aggregation precedence on supported inputs: leak-or-unsatisfied forces
state invalid with exit code 1; otherwise any unknown forces undecidable with
exit code 2; otherwise the report is valid with exit code 0. In particular an
input with both an unsatisfied and an unknown outcome is invalid, never
undecidable. -/
theorem aggregation_precedence (p : ParsedSpec)
    (h : p.spec_version = "DIL:spec v0") :
    ((vm5Leak p = true ∨
        ∃ o ∈ (validateCore p).1.outcomes, o.status = OutcomeStatus.unsatisfied) →
      (validateCore p).1.state = ReportState.invalid ∧ (validateCore p).2 = 1) ∧
    (vm5Leak p = false →
      (∀ o ∈ (validateCore p).1.outcomes, o.status ≠ OutcomeStatus.unsatisfied) →
      (∃ o ∈ (validateCore p).1.outcomes, o.status = OutcomeStatus.unknown) →
      (validateCore p).1.state = ReportState.undecidable ∧ (validateCore p).2 = 2) ∧
    (vm5Leak p = false →
      (∀ o ∈ (validateCore p).1.outcomes, o.status ≠ OutcomeStatus.unsatisfied) →
      (∀ o ∈ (validateCore p).1.outcomes, o.status ≠ OutcomeStatus.unknown) →
      (validateCore p).1.state = ReportState.valid ∧ (validateCore p).2 = 0) := by
  rw [validateCore_supported p h]
  simp only
  refine ⟨?_, ?_, ?_⟩
  · intro hcond
    have hb : (vm5Leak p
        || (coreOutcomes p).any (fun o => o.status == OutcomeStatus.unsatisfied)) = true := by
      rcases hcond with hl | hex
      · rw [hl, Bool.true_or]
      · rw [(any_status_iff _ _).mpr hex, Bool.or_true]
    unfold aggState
    rw [if_pos hb]
    exact ⟨rfl, rfl⟩
  · intro hl hall hex
    have hb : (vm5Leak p
        || (coreOutcomes p).any (fun o => o.status == OutcomeStatus.unsatisfied)) = false := by
      rw [hl, Bool.false_or]
      rw [Bool.eq_false_iff]
      intro hc
      obtain ⟨o, ho, hs⟩ := (any_status_iff _ _).mp hc
      exact hall o ho hs
    unfold aggState
    rw [if_neg (by rw [hb]; simp), if_pos ((any_status_iff _ _).mpr hex)]
    exact ⟨rfl, rfl⟩
  · intro hl hallU hallK
    have hb : (vm5Leak p
        || (coreOutcomes p).any (fun o => o.status == OutcomeStatus.unsatisfied)) = false := by
      rw [hl, Bool.false_or, Bool.eq_false_iff]
      intro hc
      obtain ⟨o, ho, hs⟩ := (any_status_iff _ _).mp hc
      exact hallU o ho hs
    have hk : ((coreOutcomes p).any (fun o => o.status == OutcomeStatus.unknown)) = false := by
      rw [Bool.eq_false_iff]
      intro hc
      obtain ⟨o, ho, hs⟩ := (any_status_iff _ _).mp hc
      exact hallK o ho hs
    unfold aggState
    rw [if_neg (by rw [hb]; simp), if_neg (by rw [hk]; simp)]
    exact ⟨rfl, rfl⟩

/-- Witness for C1: a spec with both an unsatisfied (V-M1) and an unknown
(V-M4) outcome is classified invalid with exit code 1, never undecidable. -/
theorem aggregation_precedence_witness :
    (∃ o ∈ (validateCore seedBoth).1.outcomes, o.status = OutcomeStatus.unsatisfied) ∧
    (∃ o ∈ (validateCore seedBoth).1.outcomes, o.status = OutcomeStatus.unknown) ∧
    (validateCore seedBoth).1.state = ReportState.invalid ∧
    (validateCore seedBoth).2 = 1 :=
  ⟨by decide, by decide,
   (aggregation_precedence seedBoth rfl).1 (Or.inr (by decide))⟩

/-- C6. Undeclared required capabilities make V-M4 unknown (not unsatisfied),
with targets exactly the validations missing a capability and a reason naming
the first one; with no unsatisfied outcome and no leak the report is
undecidable with exit code 2 and an empty errors list. -/
theorem capability_indeterminacy (p : ParsedSpec)
    (h : p.spec_version = "DIL:spec v0") :
    (∀ v vs, vm4Missing p = v :: vs →
      (vm4Outcome p).status = OutcomeStatus.unknown ∧
      (vm4Outcome p).targets = (vm4Missing p).map (fun x => fq "validations" x.id) ∧
      ∀ c, v.requires_capability = some c →
        (vm4Outcome p).reason = some ("Validation validations." ++ v.id
          ++ " requires undeclared capability '" ++ c ++ "'.")) ∧
    (vm4Missing p ≠ [] → vm5Leak p = false →
      (∀ o ∈ (validateCore p).1.outcomes, o.status ≠ OutcomeStatus.unsatisfied) →
      (validateCore p).1.state = ReportState.undecidable ∧
      (validateCore p).2 = 2 ∧
      (validateCore p).1.errors = []) := by
  constructor
  · intro v vs hm
    refine ⟨?_, ?_, ?_⟩
    · unfold vm4Outcome
      rw [hm]
    · unfold vm4Outcome
      rw [hm]
    · intro c hc
      unfold vm4Outcome
      rw [hm]
      simp only
      unfold vm4MissingCap
      rw [hc]
      rfl
  · intro hne hleak hall
    rw [validateCore_supported p h] at hall ⊢
    simp only at hall ⊢
    have hk : (vm4Outcome p).status = OutcomeStatus.unknown := by
      unfold vm4Outcome
      rcases hx : vm4Missing p with _ | ⟨v, vs⟩
      · exact absurd hx hne
      · rfl
    have hmem4 : vm4Outcome p ∈ coreOutcomes p := by
      unfold coreOutcomes
      simp
    have hb : (vm5Leak p
        || (coreOutcomes p).any (fun o => o.status == OutcomeStatus.unsatisfied)) = false := by
      rw [hleak, Bool.false_or, Bool.eq_false_iff]
      intro hc
      obtain ⟨o, ho, hs⟩ := (any_status_iff _ _).mp hc
      exact hall o ho hs
    have hst : aggState p = ReportState.undecidable := by
      unfold aggState
      rw [if_neg (by rw [hb]; simp),
        if_pos ((any_status_iff _ _).mpr ⟨vm4Outcome p, hmem4, hk⟩)]
    have hmem1 : vm1Outcome p ∈ coreOutcomes p := by
      unfold coreOutcomes
      simp
    have hmem3 : vm3Outcome p ∈ coreOutcomes p := by
      unfold coreOutcomes
      simp
    have he : coreErrors p = [] := by
      unfold coreErrors
      rw [vm1Errors_eq_nil p (hall _ hmem1), vm3Errors_eq_nil p (hall _ hmem3),
        vm5Errors_eq_nil p hleak]
      rfl
    rw [hst]
    refine ⟨rfl, rfl, ?_⟩
    rw [if_neg (by decide)]
    exact he

/-- Witness for C6 at the spec's `DIL.UndecidableSeed`-style example. -/
theorem capability_indeterminacy_witness :
    (vm4Outcome seedUndecidable).status = OutcomeStatus.unknown ∧
    (vm4Outcome seedUndecidable).reason =
      some "Validation validations.V4 requires undeclared capability 'x'." ∧
    (validateCore seedUndecidable).1.state = ReportState.undecidable ∧
    (validateCore seedUndecidable).2 = 2 ∧
    (validateCore seedUndecidable).1.errors = [] := by
  have h := capability_indeterminacy seedUndecidable rfl
  have h1 := h.1 { id := "V4", requires_capability := some "x" } [] (by decide)
  have h2 := h.2 (by decide) (by decide) (by decide)
  exact ⟨h1.1, h1.2.2 "x" rfl, h2.1, h2.2.1, h2.2.2⟩

/-- C5. V-M1 marks an intent associated exactly when its intents-section block
carries an explicit `validations:`/`validation:` line, or some validation has
a non-empty requires_capability and some decision supports the intent; the
outcome is satisfied with all intents as targets when every intent is
associated, and otherwise unsatisfied with exactly the unassociated intents as
targets and one INTENT_NOT_VERIFIABLE error each. An explicitly associated
intent needs no capability-based validation. -/
theorem intent_verifiability (p : ParsedSpec)
    (h : p.spec_version = "DIL:spec v0") :
    ((validateCore p).1.outcomes.head? = some (vm1Outcome p)) ∧
    (vm1Unassoc p = p.intents.filter fun i =>
      !(intentHasExplicitAssociation (sectionRaw p "intents") i.id
        || (hasReqCapValidation p && supportedBySomeDecision p i.id))) ∧
    (vm1Unassoc p = [] →
      (vm1Outcome p).status = OutcomeStatus.satisfied ∧
      (vm1Outcome p).targets = p.intents.map (fun i => fq "intents" i.id) ∧
      vm1Errors p = []) ∧
    (vm1Unassoc p ≠ [] →
      (vm1Outcome p).status = OutcomeStatus.unsatisfied ∧
      (vm1Outcome p).targets = (vm1Unassoc p).map (fun i => fq "intents" i.id) ∧
      vm1Errors p = (vm1Unassoc p).map (fun i =>
        { code := "INTENT_NOT_VERIFIABLE"
          message := "Intent lacks explicit validation; verifiability is required."
          refs := [("intent", JVal.str (fq "intents" i.id)),
                   ("validation", JVal.str "V-M1")] })) ∧
    ((vm1Outcome seedExplicitAssoc).status = OutcomeStatus.satisfied ∧
      hasReqCapValidation seedExplicitAssoc = false) := by
  refine ⟨?_, rfl, ?_, ?_, by decide, by decide⟩
  · rw [validateCore_supported p h]
    rfl
  · intro h0
    have ht : vm1UnsatTargets p = [] := by
      unfold vm1UnsatTargets
      rw [h0]
      rfl
    refine ⟨?_, ?_, ?_⟩
    · unfold vm1Outcome
      simp only
      rw [if_neg (by rw [ht]; simp)]
    · unfold vm1Outcome
      simp only
      rw [if_neg (by rw [ht]; simp)]
    · unfold vm1Errors
      rw [h0]
      rfl
  · intro h0
    have ht : vm1UnsatTargets p ≠ [] := by
      unfold vm1UnsatTargets
      simpa using h0
    exact ⟨by unfold vm1Outcome; simp only; rw [if_pos ht],
      by unfold vm1Outcome; simp only; rw [if_pos ht]; rfl, rfl⟩

/-- Witness for C5: the explicit-association seed has a satisfied V-M1 with
the intent as target, though no validation declares a capability. -/
theorem intent_verifiability_witness :
    (vm1Outcome seedExplicitAssoc).status = OutcomeStatus.satisfied ∧
    (vm1Outcome seedExplicitAssoc).targets = ["intents.I1"] ∧
    vm1Errors seedExplicitAssoc = [] := by
  have h := (intent_verifiability seedExplicitAssoc rfl).2.2.1 (by decide)
  exact ⟨h.1, h.2.1, h.2.2⟩

/-- C7. V-M3: a decision with empty supports yields exactly one
UNTRACED_DECISION error with the fixed placeholder constraint ref; a decision
with any unresolved reference yields exactly one BROKEN_REFERENCE error whose
refs always carry both an intent and a constraint key (first unresolved id, or
the fixed placeholder); the outcome is unsatisfied iff some decision fails,
with sorted deduplicated failing references as targets. -/
theorem decision_traceability (p : ParsedSpec)
    (_h : p.spec_version = "DIL:spec v0") :
    (∀ d ∈ p.decisions,
      (d.supports = [] →
        vm3DecisionErrors p d = [untracedError d] ∧
        (untracedError d).code = "UNTRACED_DECISION" ∧
        (untracedError d).refs =
          [("constraint", JVal.str "constraints.C2"),
           ("decision", JVal.str (fq "decisions" d.id))]) ∧
      (d.supports ≠ [] → (brokenIntents p d ≠ [] ∨ brokenConstraints p d ≠ []) →
        vm3DecisionErrors p d = [brokenRefError p d] ∧
        (brokenRefError p d).code = "BROKEN_REFERENCE" ∧
        (brokenRefError p d).refs.lookup "intent"
          = some (.str ((brokenIntents p d).headD "I_DO_NOT_EXIST")) ∧
        (brokenRefError p d).refs.lookup "constraint"
          = some (.str ((brokenConstraints p d).headD "C_DO_NOT_EXIST"))) ∧
      (d.supports ≠ [] → brokenIntents p d = [] → brokenConstraints p d = [] →
        vm3DecisionErrors p d = [])) ∧
    ((vm3Outcome p).status = OutcomeStatus.unsatisfied ↔
      ∃ d ∈ p.decisions, vm3DecisionFails p d = true) ∧
    ((vm3Outcome p).status = OutcomeStatus.unsatisfied →
      (vm3Outcome p).targets = sortStrings (dedupFirst (vm3BadTargets p))) := by
  have hstat : (vm3Outcome p).status = OutcomeStatus.unsatisfied ↔
      vm3BadTargets p ≠ [] := by
    constructor
    · intro hs
      intro hbt
      unfold vm3Outcome at hs
      rw [if_neg (by rw [hbt]; simp)] at hs
      rcases hd : p.decisions with _ | ⟨d, ds⟩ <;> rw [hd] at hs
      · exact absurd hs (by simp)
      · rcases ds with _ | ⟨d2, ds2⟩ <;> exact absurd hs (by simp)
    · intro hbt
      unfold vm3Outcome
      rw [if_pos hbt]
  refine ⟨?_, ?_, ?_⟩
  · intro d _
    refine ⟨?_, ?_, ?_⟩
    · intro hsup
      refine ⟨?_, rfl, rfl⟩
      unfold vm3DecisionErrors
      rw [if_pos (by rw [hsup]; rfl)]
    · intro hsup hbr
      have hne : (!(brokenIntents p d).isEmpty || !(brokenConstraints p d).isEmpty) = true := by
        rcases hbr with hb | hb
        · rw [isEmpty_false_of_ne_nil hb]
          rfl
        · rw [isEmpty_false_of_ne_nil hb]
          rw [Bool.not_false, Bool.or_true]
      refine ⟨?_, rfl, rfl, rfl⟩
      unfold vm3DecisionErrors
      rw [if_neg (by rw [isEmpty_false_of_ne_nil hsup]; simp), if_pos hne]
    · intro hsup hbi hbc
      unfold vm3DecisionErrors
      rw [if_neg (by rw [isEmpty_false_of_ne_nil hsup]; simp),
        if_neg (by rw [hbi, hbc]; simp)]
  · rw [hstat]
    unfold vm3BadTargets
    rw [Ne, List.map_eq_nil_iff, ← Ne]
    constructor
    · intro hf
      rcases hx : p.decisions.filter (fun d => vm3DecisionFails p d) with _ | ⟨d, ds⟩
      · exact absurd hx hf
      · have : d ∈ p.decisions.filter (fun d => vm3DecisionFails p d) := by
          rw [hx]
          simp
        obtain ⟨hd, hfd⟩ := List.mem_filter.mp this
        exact ⟨d, hd, hfd⟩
    · intro ⟨d, hd, hfd⟩ hnil
      have : d ∈ p.decisions.filter (fun d => vm3DecisionFails p d) :=
        List.mem_filter.mpr ⟨hd, hfd⟩
      rw [hnil] at this
      exact List.not_mem_nil d this
  · intro hs
    have hbt := hstat.mp hs
    unfold vm3Outcome
    rw [if_pos hbt]

/-- Witness for C7: one untraced decision and one decision with both a broken
intent and a broken constraint reference produce exactly one error each, and
an unsatisfied V-M3. -/
theorem decision_traceability_witness :
    vm3DecisionErrors seedDecisions { id := "D1", supports := [], respects := [] }
      = [untracedError { id := "D1", supports := [], respects := [] }] ∧
    vm3DecisionErrors seedDecisions
        { id := "D2", supports := ["I1", "IX"], respects := ["CX", "C1"] }
      = [brokenRefError seedDecisions
          { id := "D2", supports := ["I1", "IX"], respects := ["CX", "C1"] }] ∧
    (vm3Outcome seedDecisions).status = OutcomeStatus.unsatisfied := by
  have h := decision_traceability seedDecisions rfl
  refine ⟨?_, ?_, ?_⟩
  · exact ((h.1 _ (by decide)).1 rfl).1
  · exact ((h.1 _ (by decide)).2.1 (by decide) (Or.inl (by decide))).1
  · exact h.2.1.mpr ⟨{ id := "D1", supports := [], respects := [] },
      by decide, by decide⟩

/-- C8 (amended). V-M5's target list is always ["system"]; a leak (any of the
eight case-insensitive signal regexes matching the raw text) makes the outcome
unsatisfied with the fixed excerpt evidence and an IMPLEMENTATION_LEAK error
with the fixed refs, and no leak makes it satisfied. An occurrence of "O(n)"
triggers the leak when it is preceded by the start of the text or a non-word
character and followed by a word character (the regex brackets the pattern in
word-boundary assertions, so a bare "O(n)" substring does not suffice). -/
theorem no_implementation_leakage (p : ParsedSpec)
    (_h : p.spec_version = "DIL:spec v0") :
    (vm5Outcome p).targets = ["system"] ∧
    (vm5Leak p = true →
      (vm5Outcome p).status = OutcomeStatus.unsatisfied ∧
      vm5Errors p = [implLeakError] ∧
      implLeakError.code = "IMPLEMENTATION_LEAK" ∧
      implLeakError.refs = [("constraint", JVal.str "constraints.C1"),
                            ("validation", JVal.str "V-M5")] ∧
      (vm5Outcome p).evidence = some [leakExcerpt]) ∧
    (vm5Leak p = false →
      (vm5Outcome p).status = OutcomeStatus.satisfied ∧
      vm5Errors p = [] ∧ (vm5Outcome p).evidence = none) ∧
    (∀ a b : String, ∀ c : Char, ∀ cs : List Char,
      b.data = c :: cs → isWordChar c = true →
      (∀ lc, lastCharOf none a.data = some lc → isWordChar lc = false) →
      p.raw_text = a ++ "O(n)" ++ b →
      vm5Leak p = true) := by
  refine ⟨rfl, ?_, ?_, ?_⟩
  · intro hl
    refine ⟨?_, ?_, rfl, rfl, ?_⟩
    · unfold vm5Outcome
      simp only
      rw [if_pos hl]
    · unfold vm5Errors
      rw [if_pos hl]
    · unfold vm5Outcome
      simp only
      rw [if_pos hl]
  · intro hl
    refine ⟨?_, vm5Errors_eq_nil p hl, ?_⟩
    · unfold vm5Outcome
      simp only
      rw [if_neg (by rw [hl]; simp)]
    · unfold vm5Outcome
      simp only
      rw [if_neg (by rw [hl]; simp)]
  · intro a b c cs hb hc ha hraw
    unfold vm5Leak hasImplementationLeak
    rw [hraw]
    have hdata : (a ++ "O(n)" ++ b).data
        = a.data ++ ('O' :: '(' :: 'n' :: ')' :: b.data) := by
      rw [String.data_append, String.data_append, List.append_assoc]
      rfl
    have hm := matchOn a.data b.data c cs hb hc ha
    have htest : testFrom patON none
        (a.data ++ ('O' :: '(' :: 'n' :: ')' :: b.data)) = true :=
      testFrom_of_match patON a.data none _ hm
    refine List.any_eq_true.mpr ⟨patON, by simp [leakSignals], ?_⟩
    rw [hdata]
    exact htest

/-- Counterexample to C8 as stated: a raw text consisting of exactly "O(n)"
contains that substring yet V-M5 is satisfied, because the regex's trailing
word-boundary assertion fails right after the closing parenthesis. -/
theorem substring_On_leak_counterexample :
    seedON.raw_text = "O(n)" ∧
    hasImplementationLeak "O(n)" = false ∧
    (vm5Outcome seedON).status = OutcomeStatus.satisfied := by
  refine ⟨rfl, by decide, by decide⟩

/-- Witness for C8: a leaking spec gets an unsatisfied V-M5 with the fixed
error, and the bracketed-occurrence condition fires on "cost: O(n)x". -/
theorem no_implementation_leakage_witness :
    (vm5Outcome seedLeak).targets = ["system"] ∧
    vm5Leak seedLeak = true ∧
    (vm5Outcome seedLeak).status = OutcomeStatus.unsatisfied ∧
    vm5Errors seedLeak = [implLeakError] := by
  have h := no_implementation_leakage seedLeak rfl
  have hleak : vm5Leak seedLeak = true :=
    h.2.2.2 "cost: " "x" 'x' [] (by decide) (by decide) (by decide) rfl
  have h2 := h.2.1 hleak
  exact ⟨h.1, hleak, h2.1, h2.2.1⟩

/-- C9. In the constraints section, a duplicate `constraint <ID>` line leaves
the constraints map unchanged; a fresh one appends a new entry; a
`severity: <VALUE>` line rewrites the severity of the most recently added
constraint, wherever the line occurs, and has no effect when no constraint has
been registered yet. -/
theorem constraint_severity_cursor :
    (∀ (cs : List ParsedConstraint) (line : String) (cid : String),
      matchKwIdent "constraint".data (trimChars (stripHash line.data)) = some cid →
      matchSeverity (trimChars (stripHash line.data)) = none →
      (cs.any fun c => c.id == cid) = true →
      constraintsLineStep cs line = cs) ∧
    (∀ (cs : List ParsedConstraint) (line : String) (cid : String),
      matchKwIdent "constraint".data (trimChars (stripHash line.data)) = some cid →
      matchSeverity (trimChars (stripHash line.data)) = none →
      (cs.any fun c => c.id == cid) = false →
      constraintsLineStep cs line = cs ++ [{ id := cid, severity := none }]) ∧
    (∀ (cs : List ParsedConstraint) (line : String) (sev : String),
      matchSeverity (trimChars (stripHash line.data)) = some sev →
      constraintsLineStep cs line = setLastSeverity sev cs) ∧
    (∀ (sev : String) (init : List ParsedConstraint) (c : ParsedConstraint),
      setLastSeverity sev (init ++ [c]) = init ++ [{ c with severity := some sev }]) ∧
    (∀ sev : String, setLastSeverity sev [] = ([] : List ParsedConstraint)) ∧
    (∀ (line : String) (sev : String) (rest : List String),
      matchSeverity (trimChars (stripHash line.data)) = some sev →
      parseConstraintsSection (line :: rest) = parseConstraintsSection rest) := by
  have hstep : ∀ (cs : List ParsedConstraint) (line : String) (sev : String),
      matchSeverity (trimChars (stripHash line.data)) = some sev →
      constraintsLineStep cs line = setLastSeverity sev cs := by
    intro cs line sev hs
    unfold constraintsLineStep
    simp only [severity_not_constraint _ _ hs, hs]
  have hlast : ∀ (sev : String) (init : List ParsedConstraint) (c : ParsedConstraint),
      setLastSeverity sev (init ++ [c]) = init ++ [{ c with severity := some sev }] := by
    intro sev init c
    induction init with
    | nil => rfl
    | cons a t ih =>
      cases t with
      | nil => rfl
      | cons b u =>
        show a :: setLastSeverity sev ((b :: u) ++ [c])
            = a :: ((b :: u) ++ [{ c with severity := some sev }])
        rw [ih]
  refine ⟨?_, ?_, hstep, hlast, fun _ => rfl, ?_⟩
  · intro cs line cid hk hs hdup
    unfold constraintsLineStep
    simp only [hk, hs, hdup, if_pos]
  · intro cs line cid hk hs hfresh
    unfold constraintsLineStep
    simp only [hk, hs, hfresh]
    rw [if_neg]
    simp
  · intro line sev rest hs
    unfold parseConstraintsSection
    rw [List.foldl_cons, hstep [] line sev hs]
    rfl

/-- Witness for C9: a duplicate declaration is a no-op; a severity line
rewrites the last constraint even from another block; a leading severity line
has no effect. -/
theorem constraint_severity_cursor_witness :
    constraintsLineStep [{ id := "C1", severity := none }] "constraint C1 "
      = [{ id := "C1", severity := none }] ∧
    constraintsLineStep
        [{ id := "C1", severity := none }, { id := "C2", severity := none }]
        "  severity: HARD"
      = [{ id := "C1", severity := none }, { id := "C2", severity := some "HARD" }] ∧
    parseConstraintsSection ["severity: HARD", "constraint C1 x"]
      = parseConstraintsSection ["constraint C1 x"] := by
  have h := constraint_severity_cursor
  refine ⟨?_, ?_, ?_⟩
  · exact h.1 _ _ "C1" (by decide) (by decide) (by decide)
  · rw [h.2.2.1 _ _ "HARD" (by decide)]
    exact h.2.2.2.1 "HARD" [{ id := "C1", severity := none }]
      { id := "C2", severity := none }
  · exact h.2.2.2.2.2 _ "HARD" _ (by decide)

/-- Witness for C4 at the spec's example version "DIL:spec v9". -/
theorem unsupported_version_short_circuit_witness :
    ("DIL:spec v9" : String) ≠ "DIL:spec v0" ∧
    (validateCore
      { spec_version := "DIL:spec v9", system_id := "S", raw_text := ""
        sections_raw := [], capabilities := [], intents := [], constraints := []
        decisions := [], validations := [] }).1.outcomes = [] :=
  ⟨by decide,
   (unsupported_version_short_circuit
     { spec_version := "DIL:spec v9", system_id := "S", raw_text := ""
       sections_raw := [], capabilities := [], intents := [], constraints := []
       decisions := [], validations := [] } (by decide)).2.1⟩

/-- C3 (amended). emitCanonicalReport is byte-identical under reordering of
the outcomes list (provided no two distinct normalized outcomes share the
emitter's sort key), reordering of the errors list combined with reordering of
the keys inside any nested refs object (provided no two distinct errors share
the emitter's sort key), and reordering of extension keys; and key order
inside refs never affects an error's computed sort position, because the
ordering comparison uses a key-sorted stable stringification. Two outcomes or
errors that tie on the sort key but differ elsewhere keep their insertion
order (stable sort), so byte-identity does not hold for arbitrary
reorderings. -/
theorem emit_canonical_invariance :
    (∀ r₁ r₂ : CanonicalReport,
      r₁.spec_version = r₂.spec_version →
      r₁.system_id = r₂.system_id →
      r₁.state = r₂.state →
      r₁.notes = r₂.notes →
      ExtEquiv r₁.extensions r₂.extensions →
      (∀ kvs, r₁.extensions = some kvs → WFKeys (.obj (jobj kvs))) →
      r₁.outcomes.Perm r₂.outcomes →
      (∀ o₁ ∈ r₁.outcomes, ∀ o₂ ∈ r₁.outcomes,
        outKey (normalizeOutcome o₁) = outKey (normalizeOutcome o₂) →
        normalizeOutcome o₁ = normalizeOutcome o₂) →
      (∃ mid, r₁.errors.Perm mid ∧ List.Forall₂ ErrEquiv mid r₂.errors) →
      (∀ e ∈ r₁.errors, WFKeys (.obj (jobj e.refs))) →
      (∀ e₁ ∈ r₁.errors, ∀ e₂ ∈ r₁.errors, errKey e₁ = errKey e₂ → e₁ = e₂) →
      emitCanonicalReport r₁ = emitCanonicalReport r₂) ∧
    (∀ e₁ e₂ : StructuredError, ErrEquiv e₁ e₂ →
      WFKeys (.obj (jobj e₁.refs)) → errKey e₁ = errKey e₂) := by
  refine ⟨?_, fun e₁ e₂ h hw => errKey_eq_of_errEquiv h hw⟩
  intro r₁ r₂ hsv hsi hst hnotes hext hextwf hout houtkeys herr herrwf herrkeys
  obtain ⟨mid, hpm, hf⟩ := herr
  have hOsort : (r₁.outcomes.map normalizeOutcome).insertionSort outLE
      = (r₂.outcomes.map normalizeOutcome).insertionSort outLE := by
    apply eq_of_perm_of_sorted_of_antisymmOn _ _
      ((((r₁.outcomes.map normalizeOutcome).perm_insertionSort outLE).trans
          (hout.map normalizeOutcome)).trans
        ((r₂.outcomes.map normalizeOutcome).perm_insertionSort outLE).symm)
      (List.sorted_insertionSort outLE _) (List.sorted_insertionSort outLE _)
    intro a ha b hb hab hba
    have ha' := ((r₁.outcomes.map normalizeOutcome).perm_insertionSort outLE).subset ha
    have hb' := ((r₁.outcomes.map normalizeOutcome).perm_insertionSort outLE).subset hb
    obtain ⟨o₁, ho₁, rfl⟩ := List.mem_map.mp ha'
    obtain ⟨o₂, ho₂, rfl⟩ := List.mem_map.mp hb'
    exact houtkeys o₁ ho₁ o₂ ho₂ (pairLE_antisymm hab hba)
  have hmidwf : ∀ e ∈ mid, WFKeys (.obj (jobj e.refs)) :=
    fun e he => herrwf e (hpm.symm.subset he)
  have hEsort1 : r₁.errors.insertionSort errLE = mid.insertionSort errLE := by
    apply eq_of_perm_of_sorted_of_antisymmOn _ _
      (((r₁.errors.perm_insertionSort errLE).trans hpm).trans
        (mid.perm_insertionSort errLE).symm)
      (List.sorted_insertionSort errLE _) (List.sorted_insertionSort errLE _)
    intro a ha b hb hab hba
    have ha' := (r₁.errors.perm_insertionSort errLE).subset ha
    have hb' := (r₁.errors.perm_insertionSort errLE).subset hb
    exact herrkeys a ha' b hb' (pairLE_antisymm hab hba)
  have hfE : List.Forall₂ (fun a b => ErrEquiv a b ∧ errKey a = errKey b)
      mid r₂.errors :=
    forall₂_imp_mem hf (fun a _ ha hP =>
      ⟨hP, errKey_eq_of_errEquiv hP (hmidwf a ha)⟩)
  have hsorted2 : List.Forall₂ (fun a b => ErrEquiv a b ∧ errKey a = errKey b)
      (mid.insertionSort errLE) (r₂.errors.insertionSort errLE) := by
    apply forall₂_insertionSort _ errLE ?_ hfE
    intro a b x y hab hxy
    unfold errLE
    rw [hab.2, hxy.2]
  have hEfinal : List.Forall₂ ErrEquiv (mid.insertionSort errLE)
      (r₂.errors.insertionSort errLE) :=
    forall₂_imp_mem hsorted2 (fun _ _ _ h => h.1)
  have hkey : deepSortKeys (reportToJVal
      { spec_version := r₁.spec_version
        system_id := r₁.system_id
        state := r₁.state
        outcomes := (r₁.outcomes.map normalizeOutcome).insertionSort outLE
        errors := (r₁.errors.map normalizeError).insertionSort errLE
        notes := r₁.notes
        extensions := r₁.extensions })
      = deepSortKeys (reportToJVal
      { spec_version := r₂.spec_version
        system_id := r₂.system_id
        state := r₂.state
        outcomes := (r₂.outcomes.map normalizeOutcome).insertionSort outLE
        errors := (r₂.errors.map normalizeError).insertionSort errLE
        notes := r₂.notes
        extensions := r₂.extensions }) := by
    apply deepSortKeys_eq_of_jequiv
    · apply reportToJVal_jequiv
      · exact hsv
      · exact hsi
      · exact hst
      · exact hnotes
      · exact hext
      · exact hOsort
      · show List.Forall₂ ErrEquiv ((r₁.errors.map normalizeError).insertionSort errLE)
          ((r₂.errors.map normalizeError).insertionSort errLE)
        rw [map_normalizeError, map_normalizeError, hEsort1]
        exact hEfinal
    · apply wfKeys_report
      · intro e he
        have he' : e ∈ r₁.errors.map normalizeError :=
          ((r₁.errors.map normalizeError).perm_insertionSort errLE).subset he
        rw [map_normalizeError] at he'
        exact herrwf e he'
      · intro kvs hkvs
        exact hextwf kvs hkvs
  show emitCanonicalReport r₁ = emitCanonicalReport r₂
  unfold emitCanonicalReport
  exact congrArg (jStrInd "") hkey

/-- Counterexample to C3 as stated: swapping two outcomes that tie on the
emitter's sort key (same validation_id and targets) but differ in notes
changes the emitted bytes, because the stable sort preserves insertion
order. -/
theorem emit_insertion_order_counterexample :
    reportTieB.outcomes.Perm reportTieA.outcomes ∧
    reportTieA.spec_version = reportTieB.spec_version ∧
    reportTieA.system_id = reportTieB.system_id ∧
    reportTieA.state = reportTieB.state ∧
    reportTieA.errors = reportTieB.errors ∧
    emitCanonicalReport reportTieA ≠ emitCanonicalReport reportTieB := by
  refine ⟨?_, rfl, rfl, rfl, rfl, by decide⟩
  exact List.Perm.swap outcomeTieX outcomeTieY []

/-- Witness for C3: swapping two distinct-key outcomes, reordering the keys
of an error's refs, and reordering the keys of the extensions object leaves
the emitted report byte-identical. -/
theorem emit_canonical_invariance_witness :
    emitCanonicalReport reportWitA = emitCanonicalReport reportWitB := by
  apply emit_canonical_invariance.1 reportWitA reportWitB rfl rfl rfl rfl
  · refine ExtEquiv.some (@JEquiv.obj _ _ witExt2 ?_ ?_)
    · rw [toList_jobj]
      exact List.Perm.swap ("x", JVal.str "1") ("y", JVal.str "2") []
    · rw [toList_jobj]
      exact jequivKVs_refl _
  · intro kvs h
    injection h with h2
    subst h2
    refine WFKeys.obj ?_ (wfObj_of_forall _ ?_)
    · rw [toList_jobj]
      decide
    · intro p hp
      simp only [witExt1, List.mem_cons, List.not_mem_nil, or_false] at hp
      rcases hp with h | h <;> subst h <;> exact .str _
  · exact List.Perm.swap witOutB witOutA []
  · decide
  · refine ⟨[witErr1], List.Perm.refl _, ?_⟩
    refine List.Forall₂.cons ⟨rfl, rfl, rfl, rfl, ?_⟩ List.Forall₂.nil
    refine @JEquiv.obj _ _ witErrRefs2 ?_ ?_
    · rw [toList_jobj]
      exact List.Perm.swap ("b", JVal.str "2") ("a", JVal.str "1") []
    · rw [toList_jobj]
      exact jequivKVs_refl _
  · intro e he
    simp only [reportWitA, List.mem_singleton] at he
    subst he
    refine WFKeys.obj ?_ (wfObj_of_forall _ ?_)
    · rw [toList_jobj]
      decide
    · intro p hp
      simp only [witErr1, witErrRefs1, List.mem_cons, List.not_mem_nil,
        or_false] at hp
      rcases hp with h | h <;> subst h <;> exact .str _
  · intro e₁ h₁ e₂ h₂ _
    simp only [reportWitA, List.mem_singleton] at h₁ h₂
    rw [h₁, h₂]


end Dil
